import Mathlib

/-!
Verification of the marcel_os kernel against its specification.

This file gives a shallow embedding, in Lean, of the kernel components the
specification talks about, translated from the Rust sources:

* `src/allocator.rs` — the `align_up` helper (bitwise round-up on `usize`);
* `src/allocator/linked_list.rs` — the linked-list fallback allocator;
* `src/allocator/bump.rs` — the bump allocator study variant;
* `src/memory.rs` — the boot-info frame allocator;
* `src/vga_buffer.rs` — the VGA text writer;
* `src/task/executor.rs` — the cooperative executor's sleep-if-idle protocol;
* `src/task/keyboard.rs` — the scancode queue and stream.

Machine integers (`usize`/`u64`) are modelled as `Nat` with the modulus
`USIZE = 2 ^ 64` applied exactly where the Rust code can wrap, and fallible
operations (`checked_add`) return `Option`.  Stateful code is modelled by
explicit state passing, and the concurrency-sensitive routines (executor
idle loop, scancode stream) by small-step relations in which interrupt
deliveries are separate steps.
-/

/-- The modulus of the 64-bit `usize` type on x86-64. -/
def USIZE : Nat := 2 ^ 64

/-- Translation of `align_up` in `src/allocator.rs`:
`(addr + align - 1) & !(align - 1)`.  The addition is wrapping in release
builds, hence the `% USIZE`; for `align` between 1 and `2 ^ 64` the mask
`!(align - 1)` equals `2 ^ 64 - align`. -/
def align_up (addr align : Nat) : Nat :=
  ((addr + align - 1) % USIZE) &&& (USIZE - align)

/-- Translation of `usize::checked_add`: `none` exactly when the sum would
not fit in 64 bits. -/
def checked_add (a b : Nat) : Option Nat :=
  if a + b < USIZE then some (a + b) else none

/-! ## VGA text writer (`src/vga_buffer.rs`)

The 25×80 cell grid is modelled as a total function from row and column to
cells; writes become pointwise function updates.  `update_cursor` only
programs the CRTC hardware registers through ports 0x3D4/0x3D5 and does not
change the writer's own state, so it has no counterpart on the model. -/

/-- A VGA cell: ASCII byte plus colour attribute (`ScreenChar`). -/
structure ScreenChar where
  ascii_character : Nat
  color_code : Nat
deriving DecidableEq

/-- `BUFFER_HEIGHT` in `src/vga_buffer.rs`. -/
def BUFFER_HEIGHT : Nat := 25

/-- `BUFFER_WIDTH` in `src/vga_buffer.rs`. -/
def BUFFER_WIDTH : Nat := 80

/-- The VGA writer state: cursor `(row, column)`, current colour code, and
the text buffer.  (Named `Writer` in the source; that name already exists
in Mathlib.) -/
structure VgaWriter where
  cursor_position : Nat × Nat
  color_code : Nat
  buffer : Nat → Nat → ScreenChar

/-- A single volatile cell write `self.buffer.chars[r][c].write ch`. -/
def writeCell (buf : Nat → Nat → ScreenChar) (r c : Nat) (ch : ScreenChar) :
    Nat → Nat → ScreenChar :=
  fun r' c' => if r' = r ∧ c' = c then ch else buf r' c'

/-- `Writer::clear_row`: write a blank `(space, colour)` cell to every column
of the given row. -/
def clear_row (w : VgaWriter) (row : Nat) : VgaWriter :=
  let blank : ScreenChar := ⟨0x20, w.color_code⟩
  { w with
    buffer := (List.range BUFFER_WIDTH).foldl
      (fun b col => writeCell b row col blank) w.buffer }

/-- `Writer::new_line`: when the cursor row is at the last line, copy rows
1..24 up one row (reading each source row before any write touches it),
clear the last row and stay on it; otherwise advance the row.  The column
becomes 0 either way. -/
def new_line (w : VgaWriter) : VgaWriter :=
  if BUFFER_HEIGHT - 1 ≤ w.cursor_position.1 then
    let scrolled : Nat → Nat → ScreenChar :=
      (List.range' 1 (BUFFER_HEIGHT - 1)).foldl
        (fun b row => (List.range BUFFER_WIDTH).foldl
          (fun b2 col => writeCell b2 (row - 1) col (b2 row col)) b)
        w.buffer
    let w2 := clear_row { w with buffer := scrolled } (BUFFER_HEIGHT - 1)
    { w2 with cursor_position := (BUFFER_HEIGHT - 1, 0) }
  else
    { w with cursor_position := (w.cursor_position.1 + 1, 0) }

/-- `Writer::write_byte`: newline starts a new line; any other byte is
placed at the cursor after a line advance when the column has reached
`BUFFER_WIDTH`, and the column then advances. -/
def write_byte (w : VgaWriter) (byte : Nat) : VgaWriter :=
  if byte = 10 then new_line w
  else
    let w1 := if BUFFER_WIDTH ≤ w.cursor_position.2 then new_line w else w
    let row := w1.cursor_position.1
    let col := w1.cursor_position.2
    { w1 with
      buffer := writeCell w1.buffer row col ⟨byte, w1.color_code⟩,
      cursor_position := (row, col + 1) }

/-- `Writer::clear_screen`: clear every row, then home the cursor. -/
def clear_screen (w : VgaWriter) : VgaWriter :=
  let w1 := (List.range BUFFER_HEIGHT).foldl (fun wr row => clear_row wr row) w
  { w1 with cursor_position := (0, 0) }



/-! ## Linked-list allocator (`src/allocator/linked_list.rs`)

The intrusive free list is modelled as a Lean list of regions in list
order; a `ListNode` written at address `A` with size field `S` becomes the
region `⟨A, S⟩`.  On x86-64 `ListNode` is `{size: usize, next: Option<&mut
ListNode>}`: 16 bytes, alignment 8. -/

/-- Bytes of `mem::size_of::<ListNode>()`. -/
def NODE_SIZE : Nat := 16

/-- Bytes of `mem::align_of::<ListNode>()`. -/
def NODE_ALIGN : Nat := 8

/-- A free-list node: its start address and its `size` field. -/
structure Region where
  addr : Nat
  size : Nat
deriving DecidableEq

/-- `ListNode::end_addr`: one past the region. -/
def Region.end_addr (r : Region) : Nat := r.addr + r.size

/-- `LinkedListAllocator::alloc_from_region`: the candidate start is the
region start rounded up to the alignment; fail on address overflow, when
the allocation would overrun the region, or when it would leave a tail too
small to hold a `ListNode`. -/
def alloc_from_region (r : Region) (size align : Nat) : Option Nat :=
  let alloc_start := align_up r.addr align
  match checked_add alloc_start size with
  | none => none
  | some alloc_end =>
    if r.end_addr < alloc_end then none
    else
      let excess_size := r.end_addr - alloc_end
      if 0 < excess_size ∧ excess_size < NODE_SIZE then none
      else some alloc_start

/-- `LinkedListAllocator::find_region`: first-fit scan; the matching node is
detached, the rest of the list keeps its order. -/
def find_region : List Region → Nat → Nat → Option (Region × Nat × List Region)
  | [], _, _ => none
  | r :: rest, size, align =>
    match alloc_from_region r size align with
    | some alloc_start => some (r, alloc_start, rest)
    | none =>
      match find_region rest size align with
      | some (rf, af, restf) => some (rf, af, r :: restf)
      | none => none

/-- `LinkedListAllocator::size_align`: raise the alignment to the node
alignment (`Layout::align_to` takes the maximum), pad the size to the
resulting alignment (`pad_to_align` uses the same round-up mask as
`align_up`), and raise it to at least the node size. -/
def size_align (size align : Nat) : Nat × Nat :=
  let a := max align NODE_ALIGN
  let padded := align_up size a
  (max padded NODE_SIZE, a)

/-- `LinkedListAllocator::add_free_region` writes a node header at `addr`
and prepends it.  Its two asserts (`addr` node-aligned, `size` at least the
node size) are verification conditions discharged by the free-list
invariant below. -/
def add_free_region (free : List Region) (addr size : Nat) : List Region :=
  ⟨addr, size⟩ :: free

/-- `LinkedListAllocator::init`: seed the empty list with the whole heap. -/
def ll_init (heap_start heap_size : Nat) : List Region :=
  add_free_region [] heap_start heap_size

/-- `GlobalAlloc::alloc` for `Locked<LinkedListAllocator>`: adjust the
layout, find a region first-fit, split off the excess tail when non-empty,
return the block address, or the null pointer (`none`) when no region
fits. -/
def ll_alloc (free : List Region) (lsize lalign : Nat) : Option Nat × List Region :=
  let sa := size_align lsize lalign
  match find_region free sa.1 sa.2 with
  | some (region, alloc_start, rest) =>
    let alloc_end := alloc_start + sa.1
    let excess_size := region.end_addr - alloc_end
    (some alloc_start,
      if 0 < excess_size then add_free_region rest alloc_end excess_size else rest)
  | none => (none, free)

/-- `GlobalAlloc::dealloc` for `Locked<LinkedListAllocator>`: re-adjust the
layout and prepend the block as a free region. -/
def ll_dealloc (free : List Region) (ptr lsize lalign : Nat) : List Region :=
  add_free_region free ptr (size_align lsize lalign).1

/-- An operation against the linked-list allocator: an `alloc` with a
layout, or a `dealloc` of a pointer with the layout it was allocated
with. -/
inductive LLOp where
  | alloc (lsize lalign : Nat)
  | dealloc (ptr lsize lalign : Nat)
deriving DecidableEq

/-- Allocator state: the free list plus the multiset of live allocations
(pointer and original layout), recorded so that deallocation can be
restricted to previously allocated blocks. -/
structure LLState where
  free : List Region
  allocated : List (Nat × Nat × Nat)
deriving DecidableEq

/-- State straight after `init(heap_start, heap_size)`. -/
def llInit (heap_start heap_size : Nat) : LLState :=
  ⟨ll_init heap_start heap_size, []⟩

/-- Remove the first occurrence of a live-allocation record. -/
def removeAllocated : List (Nat × Nat × Nat) → Nat × Nat × Nat → List (Nat × Nat × Nat)
  | [], _ => []
  | x :: xs, a => if x = a then xs else x :: removeAllocated xs a

/-- One `alloc` or `dealloc` call. -/
def llStep (s : LLState) : LLOp → LLState
  | .alloc lsize lalign =>
    let res := ll_alloc s.free lsize lalign
    match res.1 with
    | some p => ⟨res.2, (p, lsize, lalign) :: s.allocated⟩
    | none => ⟨res.2, s.allocated⟩
  | .dealloc p lsize lalign =>
    ⟨ll_dealloc s.free p lsize lalign, removeAllocated s.allocated (p, lsize, lalign)⟩

/-- Legality of one call: an `alloc` carries a well-formed Rust `Layout`
(power-of-two alignment fitting `usize`, size bounded as `Layout`
guarantees), a `dealloc` names a live allocation with its layout. -/
def LLValidOp (s : LLState) : LLOp → Prop
  | .alloc lsize lalign =>
    (∃ k, k ≤ 63 ∧ lalign = 2 ^ k) ∧ lsize + lalign ≤ 2 ^ 63
  | .dealloc p lsize lalign => (p, lsize, lalign) ∈ s.allocated

/-- Legality of a call sequence. -/
def LLValidSeq : LLState → List LLOp → Prop
  | _, [] => True
  | s, op :: ops => LLValidOp s op ∧ LLValidSeq (llStep s op) ops

/-- States reachable from `s0` by legal calls. -/
def LLReachable (s0 s : LLState) : Prop :=
  ∃ ops, LLValidSeq s0 ops ∧ s = ops.foldl llStep s0

/-- Well-formedness of a single region: node-aligned start, at least node
size, inside the heap. -/
def RegionWF (heap_start heap_end : Nat) (r : Region) : Prop :=
  align_up r.addr NODE_ALIGN = r.addr ∧ NODE_SIZE ≤ r.size ∧
  heap_start ≤ r.addr ∧ r.end_addr ≤ heap_end

/-- Two regions do not overlap. -/
def RegionsDisjoint (a b : Region) : Prop :=
  a.end_addr ≤ b.addr ∨ b.end_addr ≤ a.addr

/-- The region occupied by a live allocation (its adjusted size). -/
def allocRegion (t : Nat × Nat × Nat) : Region :=
  ⟨t.1, (size_align t.2.1 t.2.2).1⟩

/-- All regions the allocator accounts for: free nodes and live blocks. -/
def LLRegions (s : LLState) : List Region :=
  s.free ++ s.allocated.map allocRegion

/-- Decision procedure for the claimed list-order property: each free node
is followed, in list order, by a node starting strictly past its end. -/
def nextStrictlyAfter : List Region → Bool
  | r1 :: r2 :: rest => (decide (r1.end_addr < r2.addr)) && nextStrictlyAfter (r2 :: rest)
  | _ => true

/-! ## Bump allocator (`src/allocator/bump.rs`) -/

/-- The bump allocator state. -/
structure BumpState where
  heap_start : Nat
  heap_end : Nat
  next : Nat
  allocations : Nat
deriving DecidableEq

/-- `BumpAllocator::new` followed by `init(heap_start, heap_size)`;
`heap_end` uses `saturating_add`. -/
def bump_init (heap_start heap_size : Nat) : BumpState :=
  ⟨heap_start, min (heap_start + heap_size) (USIZE - 1), heap_start, 0⟩

/-- `GlobalAlloc::alloc` for `Locked<BumpAllocator>`: align the bump
pointer, fail (null, state untouched) on address overflow or when the end
would pass `heap_end`; otherwise advance `next` and count the
allocation. -/
def bump_alloc (s : BumpState) (lsize lalign : Nat) : Option Nat × BumpState :=
  let alloc_start := align_up s.next lalign
  match checked_add alloc_start lsize with
  | none => (none, s)
  | some alloc_end =>
    if s.heap_end < alloc_end then (none, s)
    else (some alloc_start,
      { s with next := alloc_end, allocations := s.allocations + 1 })

/-- `GlobalAlloc::dealloc` for `Locked<BumpAllocator>`: drop the count and
reset the bump pointer when it reaches zero. -/
def bump_dealloc (s : BumpState) : BumpState :=
  let a := s.allocations - 1
  { s with allocations := a, next := if a = 0 then s.heap_start else s.next }

/-- A call against the bump allocator. -/
inductive BumpOp where
  | alloc (lsize lalign : Nat)
  | dealloc
deriving DecidableEq

/-- One bump-allocator call. -/
def bumpStep (s : BumpState) : BumpOp → BumpState
  | .alloc lsize lalign => (bump_alloc s lsize lalign).2
  | .dealloc => bump_dealloc s

/-- Legality: alloc layouts have power-of-two alignment; a dealloc matches
a live allocation (`allocations` would underflow otherwise). -/
def BumpValidOp (s : BumpState) : BumpOp → Prop
  | .alloc _ lalign => ∃ k, k ≤ 63 ∧ lalign = 2 ^ k
  | .dealloc => 0 < s.allocations

/-- Legality of a bump call sequence. -/
def BumpValidSeq : BumpState → List BumpOp → Prop
  | _, [] => True
  | s, op :: ops => BumpValidOp s op ∧ BumpValidSeq (bumpStep s op) ops

/-- Bump states reachable by legal calls. -/
def BumpReachable (s0 s : BumpState) : Prop :=
  ∃ ops, BumpValidSeq s0 ops ∧ s = ops.foldl bumpStep s0

/-! ## Frame allocator (`src/memory.rs`) -/

/-- The region kinds of the bootloader memory map that matter here. -/
inductive MemoryRegionType where
  | Usable
  | InUse
  | Reserved
  | Other
deriving DecidableEq

/-- One bootloader memory-map entry, by its address range. -/
structure MemoryRegion where
  start_addr : Nat
  end_addr : Nat
  region_type : MemoryRegionType
deriving DecidableEq

/-- Rust `(start..stop).step_by(4096)`: `start, start + 4096, …` while below
`stop`. -/
def step_by_4096 (start stop : Nat) : List Nat :=
  (List.range ((stop - start + 4095) / 4096)).map (fun i => start + 4096 * i)

/-- `PhysFrame::containing_address`: round down to the 4 KiB boundary. -/
def containing_address (addr : Nat) : Nat := addr / 4096 * 4096

/-- `BootInfoFrameAllocator::usable_frames`: filter `Usable` regions in map
order, enumerate each range by 4096-byte steps, take each address as a
frame. -/
def usable_frames (memory_map : List MemoryRegion) : List Nat :=
  ((memory_map.filter
      (fun r => r.region_type == MemoryRegionType.Usable)).flatMap
    (fun r => step_by_4096 r.start_addr r.end_addr)).map containing_address

/-- `BootInfoFrameAllocator`: the map plus the count of calls made. -/
structure BootInfoFrameAllocator where
  memory_map : List MemoryRegion
  next : Nat
deriving DecidableEq

/-- `BootInfoFrameAllocator::init`. -/
def BootInfoFrameAllocator.init (memory_map : List MemoryRegion) :
    BootInfoFrameAllocator :=
  ⟨memory_map, 0⟩

/-- `FrameAllocator::allocate_frame`: take the `next`-th usable frame (if
any), and increment `next` unconditionally. -/
def allocate_frame (a : BootInfoFrameAllocator) :
    Option Nat × BootInfoFrameAllocator :=
  ((usable_frames a.memory_map).get? a.next, ⟨a.memory_map, a.next + 1⟩)

/-- Allocator state after `n` calls to `allocate_frame` from `init`. -/
def frame_calls (memory_map : List MemoryRegion) : Nat → BootInfoFrameAllocator
  | 0 => BootInfoFrameAllocator.init memory_map
  | n + 1 => (allocate_frame (frame_calls memory_map n)).2

/-! ## Cooperative executor idle protocol (`src/task/executor.rs`)

One iteration of `Executor::sleep_if_idle` is a small-step program over a
state holding the ready queue (`task_queue`, an `ArrayQueue` of capacity
100), the CPU interrupt flag, and whether the CPU is halted.  Device
interrupts are environment steps: they may fire only while the interrupt
flag is set, they push a woken task id, and they wake a halted CPU. -/

/-- Program counter inside `sleep_if_idle`. -/
inductive ExecPc where
  | idleCheck
  | preDisable
  | recheck
  | donePc
deriving DecidableEq

/-- Executor-visible machine state for the idle protocol. -/
structure ExecState where
  task_queue : List Nat
  interruptsEnabled : Bool
  halted : Bool
  pc : ExecPc
deriving DecidableEq

/-- Small-step semantics of `sleep_if_idle` plus interrupt environment:
`irq` is a device interrupt whose handler wakes a task (pushes onto the
ready queue through its waker) — possible only with interrupts enabled, and
it brings a halted CPU out of `hlt`; the remaining steps are the statements
of `sleep_if_idle` in order: outer emptiness check, `interrupts::disable`,
re-check with either the atomic `enable_and_hlt` or `interrupts::enable`. -/
inductive ExecStep : ExecState → ExecState → Prop where
  | irq (s : ExecState) (t : Nat)
      (hint : s.interruptsEnabled = true)
      (hcap : s.task_queue.length < 100) :
      ExecStep s { s with task_queue := s.task_queue ++ [t], halted := false }
  | checkEmptyTrue (s : ExecState)
      (hpc : s.pc = ExecPc.idleCheck) (hh : s.halted = false)
      (hq : s.task_queue = []) :
      ExecStep s { s with pc := ExecPc.preDisable }
  | checkEmptyFalse (s : ExecState)
      (hpc : s.pc = ExecPc.idleCheck) (hh : s.halted = false)
      (hq : s.task_queue ≠ []) :
      ExecStep s { s with pc := ExecPc.donePc }
  | disableInterrupts (s : ExecState)
      (hpc : s.pc = ExecPc.preDisable) (hh : s.halted = false) :
      ExecStep s { s with interruptsEnabled := false, pc := ExecPc.recheck }
  | enableAndHlt (s : ExecState)
      (hpc : s.pc = ExecPc.recheck) (hh : s.halted = false)
      (hq : s.task_queue = []) :
      ExecStep s { s with interruptsEnabled := true, halted := true, pc := ExecPc.donePc }
  | enableInterrupts (s : ExecState)
      (hpc : s.pc = ExecPc.recheck) (hh : s.halted = false)
      (hq : s.task_queue ≠ []) :
      ExecStep s { s with interruptsEnabled := true, pc := ExecPc.donePc }

/-- The executor entering `sleep_if_idle`: running (not halted), interrupts
enabled, at the outer emptiness check, with any queue contents. -/
def execStart (q : List Nat) : ExecState :=
  ⟨q, true, false, ExecPc.idleCheck⟩

/-! ## Scancode queue and stream (`src/task/keyboard.rs`) -/

/-- Capacity of `SCANCODE_QUEUE` (`ArrayQueue::new(100)`). -/
def QUEUE_CAPACITY : Nat := 100

/-- The module state seen by `add_scancode`: whether the one-shot
`SCANCODE_QUEUE` cell is initialized, the queue contents, and the
`AtomicWaker` slot (holding some task's waker id). -/
structure ScancodeQueueState where
  initialized : Bool
  queue : List Nat
  waker : Option Nat
deriving DecidableEq

/-- The two warning messages `add_scancode` can print. -/
inductive KbWarning where
  | queueFull
  | queueUninitialized
deriving DecidableEq

/-- Outcome of one `add_scancode` call: the new state, whether
`WAKER.wake()` ran, which waker it took (if one was registered), and any
printed warning. -/
structure AddScancodeResult where
  state : ScancodeQueueState
  wakeCalled : Bool
  wokenWaker : Option Nat
  warning : Option KbWarning
deriving DecidableEq

/-- `add_scancode`: uninitialized queue — warn and drop; full queue — warn
and drop; else push the byte at the back and run `WAKER.wake()`, which
takes and wakes the registered waker if any. -/
def add_scancode (s : ScancodeQueueState) (scancode : Nat) : AddScancodeResult :=
  if s.initialized then
    if QUEUE_CAPACITY ≤ s.queue.length then
      ⟨s, false, none, some KbWarning.queueFull⟩
    else
      ⟨{ s with queue := s.queue ++ [scancode], waker := none },
        true, s.waker, none⟩
  else
    ⟨s, false, none, some KbWarning.queueUninitialized⟩

/-- Program counter inside `ScancodeStream::poll_next`. -/
inductive PollPc where
  | firstPop
  | registerWaker
  | secondPop
  | donePc
deriving DecidableEq

/-- Result type of `poll_next` (`Poll<Option<u8>>`). -/
inductive PollRes where
  | pending
  | ready (v : Option Nat)
deriving DecidableEq

/-- State of one `poll_next` call racing the IRQ producer: queue contents,
`AtomicWaker` slot, position inside `poll_next`, its return value once it
returns, and whether any producer wake actually fired a waker. -/
structure PollState where
  queue : List Nat
  waker : Option Nat
  pc : PollPc
  result : Option PollRes
  woken : Bool
deriving DecidableEq

/-- Small-step semantics of `poll_next` (the task polling with waker `cw`)
interleaved with the IRQ producer.  Producer steps model `add_scancode`:
a successful push, the `WAKER.wake()` after it (which takes a registered
waker), and a full-queue drop.  Consumer steps are `poll_next`'s three
stages: first `queue.pop()` (return the byte at once when present),
`WAKER.register(cx.waker())`, second `queue.pop()` (take the waker and
return the byte, or return `Pending` with the waker left in place). -/
inductive KbStep (cw : Nat) : PollState → PollState → Prop where
  | producerPush (s : PollState) (b : Nat)
      (hcap : s.queue.length < QUEUE_CAPACITY) :
      KbStep cw s { s with queue := s.queue ++ [b] }
  | producerWakeSome (s : PollState) (w : Nat) (hw : s.waker = some w) :
      KbStep cw s { s with waker := none, woken := true }
  | producerWakeNone (s : PollState) (hw : s.waker = none) :
      KbStep cw s s
  | producerFullDrop (s : PollState) (b : Nat)
      (hcap : QUEUE_CAPACITY ≤ s.queue.length) :
      KbStep cw s s
  | pop1Some (s : PollState) (b : Nat) (rest : List Nat)
      (hpc : s.pc = PollPc.firstPop) (hq : s.queue = b :: rest) :
      KbStep cw s { s with queue := rest, pc := PollPc.donePc, result := some (PollRes.ready (some b)) }
  | pop1None (s : PollState)
      (hpc : s.pc = PollPc.firstPop) (hq : s.queue = []) :
      KbStep cw s { s with pc := PollPc.registerWaker }
  | registerStep (s : PollState) (hpc : s.pc = PollPc.registerWaker) :
      KbStep cw s { s with waker := some cw, pc := PollPc.secondPop }
  | pop2Some (s : PollState) (b : Nat) (rest : List Nat)
      (hpc : s.pc = PollPc.secondPop) (hq : s.queue = b :: rest) :
      KbStep cw s { s with queue := rest, waker := none, pc := PollPc.donePc, result := some (PollRes.ready (some b)) }
  | pop2None (s : PollState)
      (hpc : s.pc = PollPc.secondPop) (hq : s.queue = []) :
      KbStep cw s { s with pc := PollPc.donePc, result := some PollRes.pending }

/-- A `poll_next` call starting on queue contents `q`, no waker
registered. -/
def pollStart (q : List Nat) : PollState :=
  ⟨q, none, PollPc.firstPop, none, false⟩

/-! ## Sample states used by witnesses -/

/-- A writer mid-screen, for exercising `clear_screen`. -/
def sampleWriter : VgaWriter :=
  ⟨(3, 7), 15, fun _ _ => ⟨0x41, 15⟩⟩

/-- A writer whose cursor sits past the last column of the last row. -/
def wrapWriter : VgaWriter :=
  ⟨(24, 80), 10, fun _ _ => ⟨0x41, 10⟩⟩

/-! ## Theorems -/

/-- Bitwise fact: masking a 64-bit value with `2 ^ 64 - 2 ^ k` clears its low
`k` bits, i.e. rounds down to a multiple of `2 ^ k`. -/
theorem land_mask_high (x k : Nat) (hx : x < 2 ^ 64) (hk : k ≤ 64) :
    x &&& (2 ^ 64 - 2 ^ k) = x / 2 ^ k * 2 ^ k := by
  have hmask : (2 : Nat) ^ 64 - 2 ^ k = (2 ^ (64 - k) - 1) <<< k := by
    rw [Nat.shiftLeft_eq, Nat.sub_mul, one_mul, ← Nat.pow_add, Nat.sub_add_cancel hk]
  have hrhs : x / 2 ^ k * 2 ^ k = (x >>> k) <<< k := by
    rw [Nat.shiftLeft_eq, Nat.shiftRight_eq_div_pow]
  rw [hmask, hrhs]
  apply Nat.eq_of_testBit_eq
  intro i
  rw [Nat.testBit_land, Nat.testBit_shiftLeft, Nat.testBit_shiftLeft,
    Nat.testBit_two_pow_sub_one, Nat.testBit_shiftRight]
  by_cases hik : k ≤ i
  · by_cases hi64 : i < 64
    · have : k + (i - k) = i := by omega
      simp [ge_iff_le, hik, this]
      intro h
      omega
    · have hxbit : x.testBit i = false := by
        apply Nat.testBit_lt_two_pow
        calc x < 2 ^ 64 := hx
        _ ≤ 2 ^ i := Nat.pow_le_pow_right (by norm_num) (by omega)
      have : k + (i - k) = i := by omega
      simp [ge_iff_le, hik, this, hxbit]
  · simp [ge_iff_le, hik]

/-- For power-of-two alignments without overflow, `align_up` computes the
arithmetic round-up. -/
theorem align_up_two_pow (addr k : Nat) (hk : k ≤ 64) (h : addr + 2 ^ k ≤ 2 ^ 64) :
    align_up addr (2 ^ k) = (addr + 2 ^ k - 1) / 2 ^ k * 2 ^ k := by
  have h1 : addr + 2 ^ k - 1 < 2 ^ 64 := by
    have : (0 : Nat) < 2 ^ k := Nat.pos_pow_of_pos k (by norm_num)
    omega
  unfold align_up USIZE
  rw [Nat.mod_eq_of_lt h1]
  exact land_mask_high _ k h1 hk

/-- `align_up` never moves an address down (absent overflow). -/
theorem align_up_ge (addr k : Nat) (hk : k ≤ 64) (h : addr + 2 ^ k ≤ 2 ^ 64) :
    addr ≤ align_up addr (2 ^ k) := by
  rw [align_up_two_pow addr k hk h]
  have hpos : (0 : Nat) < 2 ^ k := Nat.pos_pow_of_pos k (by norm_num)
  have := Nat.lt_div_mul_add (a := addr + 2 ^ k - 1) hpos
  have h2 := Nat.div_mul_le_self (addr + 2 ^ k - 1) (2 ^ k)
  omega

/-- The result of `align_up` is a multiple of the alignment. -/
theorem align_up_dvd (addr k : Nat) (hk : k ≤ 64) (h : addr + 2 ^ k ≤ 2 ^ 64) :
    2 ^ k ∣ align_up addr (2 ^ k) := by
  rw [align_up_two_pow addr k hk h]
  exact Dvd.intro_left _ rfl

/-- `align_up` moves an address up by less than one alignment unit. -/
theorem align_up_lt (addr k : Nat) (hk : k ≤ 64) (h : addr + 2 ^ k ≤ 2 ^ 64) :
    align_up addr (2 ^ k) < addr + 2 ^ k := by
  rw [align_up_two_pow addr k hk h]
  have hpos : (0 : Nat) < 2 ^ k := Nat.pos_pow_of_pos k (by norm_num)
  have h2 := Nat.div_mul_le_self (addr + 2 ^ k - 1) (2 ^ k)
  omega

/-- An already aligned address is a fixed point of `align_up`. -/
theorem align_up_of_dvd (addr k : Nat) (hk : k ≤ 64) (h : addr + 2 ^ k ≤ 2 ^ 64)
    (hd : 2 ^ k ∣ addr) : align_up addr (2 ^ k) = addr := by
  have hpos : (0 : Nat) < 2 ^ k := Nat.pos_pow_of_pos k (by norm_num)
  have hle := align_up_ge addr k hk h
  have hlt := align_up_lt addr k hk h
  obtain ⟨b, hb⟩ := align_up_dvd addr k hk h
  obtain ⟨a, ha⟩ := hd
  have hab : a ≤ b := Nat.le_of_mul_le_mul_left (by rw [← ha, ← hb]; exact hle) hpos
  have hba : b < a + 1 :=
    Nat.lt_of_mul_lt_mul_left (a := 2 ^ k)
      (by rw [← hb, Nat.mul_add, ← ha, Nat.mul_one]; exact hlt)
  have : b = a := by omega
  rw [hb, this, ha]

/-- Specialization to the list-node alignment 8 = 2 ^ 3. -/
theorem align_up_eight_of_dvd (addr : Nat) (h8 : 8 ∣ addr) (h : addr + 8 ≤ 2 ^ 64) :
    align_up addr 8 = addr := by
  have h3 : (8 : Nat) = 2 ^ 3 := by norm_num
  rw [h3] at h8 h ⊢
  exact align_up_of_dvd addr 3 (by norm_num) h h8

/-- Writer states are equal when all fields agree, the buffer pointwise. -/
theorem VgaWriter.ext_pointwise (w1 w2 : VgaWriter)
    (h1 : w1.cursor_position = w2.cursor_position)
    (h2 : w1.color_code = w2.color_code)
    (h3 : ∀ r c, w1.buffer r c = w2.buffer r c) : w1 = w2 := by
  cases w1
  cases w2
  simp only [VgaWriter.mk.injEq]
  refine ⟨h1, h2, ?_⟩
  funext r c
  exact h3 r c

/-- Filling one row cell by cell equals a pointwise description. -/
theorem foldl_writeCell_row (buf : Nat → Nat → ScreenChar) (row : Nat)
    (ch : ScreenChar) (n : Nat) :
    ∀ r c, (List.range n).foldl (fun b col => writeCell b row col ch) buf r c
      = if r = row ∧ c < n then ch else buf r c := by
  induction n with
  | zero => intro r c; simp
  | succ n ih =>
    intro r c
    rw [List.range_succ, List.foldl_append, List.foldl_cons, List.foldl_nil]
    simp only [writeCell]
    rw [ih]
    split_ifs <;> first | rfl | omega

/-- Copying row `k` onto row `k - 1` cell by cell: the source row is never
written during the loop, so every read sees the original buffer. -/
theorem foldl_copy_row (buf : Nat → Nat → ScreenChar) (k n : Nat) (hk : 1 ≤ k) :
    ∀ r c, (List.range n).foldl
        (fun b2 col => writeCell b2 (k - 1) col (b2 k col)) buf r c
      = if r = k - 1 ∧ c < n then buf k c else buf r c := by
  induction n with
  | zero => intro r c; simp
  | succ n ih =>
    intro r c
    rw [List.range_succ, List.foldl_append, List.foldl_cons, List.foldl_nil]
    simp only [writeCell]
    rw [ih, ih]
    have hkk : ¬(k = k - 1 ∧ (n : Nat) < n) := by omega
    rw [if_neg hkk]
    split_ifs with h1 h2 h3 <;>
      first | rfl | omega | (obtain ⟨h1a, h1b⟩ := h1; rw [h1b])

/-- The scroll loop of `new_line`, processing source rows `1..m`, shifts the
first `m` rows of the grid up by one. -/
theorem foldl_scroll (buf : Nat → Nat → ScreenChar) (m : Nat) :
    ∀ r c, (List.range' 1 m).foldl
      (fun b row => (List.range BUFFER_WIDTH).foldl
        (fun b2 col => writeCell b2 (row - 1) col (b2 row col)) b) buf r c
      = if r < m ∧ c < BUFFER_WIDTH then buf (r + 1) c else buf r c := by
  induction m with
  | zero => intro r c; simp
  | succ m ih =>
    intro r c
    rw [List.range'_concat, List.foldl_append, List.foldl_cons, List.foldl_nil]
    have hm1 : 1 + 1 * m = m + 1 := by omega
    rw [hm1]
    have hk1 : (1 : Nat) ≤ m + 1 := by omega
    rw [foldl_copy_row _ _ _ hk1 r c]
    have hms : m + 1 - 1 = m := by omega
    rw [hms]
    simp only [ih]
    have hnot : ¬(m + 1 < m ∧ c < BUFFER_WIDTH) := by omega
    rw [if_neg hnot]
    split_ifs with h1 h2 h3 <;>
      first
        | rfl | omega
        | (obtain ⟨h1a, _⟩ := h1; rw [h1a])

/-- Pointwise description of `clear_row`'s buffer; cursor and colour are
untouched. -/
theorem clear_row_buffer (w : VgaWriter) (row : Nat) :
    ∀ r c, (clear_row w row).buffer r c
      = if r = row ∧ c < BUFFER_WIDTH then ⟨0x20, w.color_code⟩ else w.buffer r c := by
  intro r c
  simp only [clear_row]
  rw [foldl_writeCell_row]

/-- `new_line` never touches the colour code. -/
theorem new_line_color (w : VgaWriter) : (new_line w).color_code = w.color_code := by
  unfold new_line clear_row
  split_ifs <;> rfl

/-- Cursor movement of `new_line`: row capped at the last line, column 0. -/
theorem new_line_cursor (w : VgaWriter) :
    (new_line w).cursor_position
      = if BUFFER_HEIGHT - 1 ≤ w.cursor_position.1
          then (BUFFER_HEIGHT - 1, 0) else (w.cursor_position.1 + 1, 0) := by
  unfold new_line clear_row
  split_ifs <;> rfl

/-- Below the last row, `new_line` leaves the buffer unchanged. -/
theorem new_line_buffer_low (w : VgaWriter)
    (h : w.cursor_position.1 < BUFFER_HEIGHT - 1) :
    (new_line w).buffer = w.buffer := by
  unfold new_line
  rw [if_neg (by omega)]

/-- On (or past) the last row, `new_line` scrolls: the last row becomes
blank, earlier rows take the contents of the row below. -/
theorem new_line_buffer_high (w : VgaWriter)
    (h : BUFFER_HEIGHT - 1 ≤ w.cursor_position.1) :
    ∀ r c, (new_line w).buffer r c
      = if r = BUFFER_HEIGHT - 1 ∧ c < BUFFER_WIDTH then ⟨0x20, w.color_code⟩
        else if r < BUFFER_HEIGHT - 1 ∧ c < BUFFER_WIDTH then w.buffer (r + 1) c
        else w.buffer r c := by
  intro r c
  unfold new_line
  rw [if_pos h]
  simp only [clear_row_buffer, foldl_scroll]

/-- The row-clearing loop of `clear_screen` preserves cursor and colour. -/
theorem clear_rows_cursor_color (w : VgaWriter) (n : Nat) :
    ((List.range n).foldl (fun wr row => clear_row wr row) w).cursor_position
        = w.cursor_position
      ∧ ((List.range n).foldl (fun wr row => clear_row wr row) w).color_code
        = w.color_code := by
  induction n with
  | zero => exact ⟨rfl, rfl⟩
  | succ n ih =>
    rw [List.range_succ, List.foldl_append, List.foldl_cons, List.foldl_nil]
    exact ih

/-- Pointwise description of the row-clearing loop of `clear_screen`. -/
theorem clear_rows_buffer (w : VgaWriter) (n : Nat) :
    ∀ r c, ((List.range n).foldl (fun wr row => clear_row wr row) w).buffer r c
      = if r < n ∧ c < BUFFER_WIDTH then ⟨0x20, w.color_code⟩ else w.buffer r c := by
  induction n with
  | zero => intro r c; simp
  | succ n ih =>
    intro r c
    rw [List.range_succ, List.foldl_append, List.foldl_cons, List.foldl_nil]
    rw [clear_row_buffer]
    rw [(clear_rows_cursor_color w n).2]
    simp only [ih]
    split_ifs <;> first | rfl | omega

/-- The cursor is homed by `clear_screen`. -/
theorem clear_screen_cursor (w : VgaWriter) :
    (clear_screen w).cursor_position = (0, 0) := rfl

/-- `clear_screen` keeps the colour code. -/
theorem clear_screen_color (w : VgaWriter) :
    (clear_screen w).color_code = w.color_code := by
  have h : clear_screen w
      = { (List.range BUFFER_HEIGHT).foldl (fun wr row => clear_row wr row) w with
          cursor_position := (0, 0) } := rfl
  rw [h]
  exact (clear_rows_cursor_color w BUFFER_HEIGHT).2

/-- Pointwise description of `clear_screen`'s buffer. -/
theorem clear_screen_buffer (w : VgaWriter) :
    ∀ r c, (clear_screen w).buffer r c
      = if r < BUFFER_HEIGHT ∧ c < BUFFER_WIDTH then ⟨0x20, w.color_code⟩
        else w.buffer r c := by
  intro r c
  have h : clear_screen w
      = { (List.range BUFFER_HEIGHT).foldl (fun wr row => clear_row wr row) w with
          cursor_position := (0, 0) } := rfl
  rw [h]
  exact clear_rows_buffer w BUFFER_HEIGHT r c

/-- C9: `clear_screen` is idempotent — from any writer state, calling it
twice yields the same buffer and cursor state as calling it once — and
immediately after a call the cursor is `(0, 0)` and every one of the 25×80
cells holds the pair `(0x20, current attribute)`, the attribute being the
writer's (unchanged) colour code. -/
theorem C9_clear_screen_idempotent (w : VgaWriter) :
    clear_screen (clear_screen w) = clear_screen w ∧
    (clear_screen w).cursor_position = (0, 0) ∧
    ∀ r c, r < BUFFER_HEIGHT → c < BUFFER_WIDTH →
      (clear_screen w).buffer r c = ⟨0x20, (clear_screen w).color_code⟩ := by
  refine ⟨?_, clear_screen_cursor w, ?_⟩
  · apply VgaWriter.ext_pointwise
    · rw [clear_screen_cursor, clear_screen_cursor]
    · rw [clear_screen_color]
    · intro r c
      simp only [clear_screen_buffer, clear_screen_color]
      split_ifs <;> rfl
  · intro r c hr hc
    rw [clear_screen_buffer w r c, if_pos ⟨hr, hc⟩, clear_screen_color]

/-- Witness for C9 at a concrete writer state. -/
theorem C9_clear_screen_idempotent_witness :
    clear_screen (clear_screen sampleWriter) = clear_screen sampleWriter ∧
    (clear_screen sampleWriter).cursor_position = (0, 0) ∧
    (clear_screen sampleWriter).buffer 3 5
      = ⟨0x20, (clear_screen sampleWriter).color_code⟩ := by
  obtain ⟨h1, h2, h3⟩ := C9_clear_screen_idempotent sampleWriter
  exact ⟨h1, h2, h3 3 5 (by decide) (by decide)⟩

/-- C8: for a byte other than newline, `write_byte` at a cursor whose
column has reached 80 first advances the line — incrementing the row when
it is below 24, otherwise scrolling rows 1..24 up to rows 0..23, blanking
row 24 and staying on row 24 — with the column reset to 0, and only then
places `(byte, attribute)` at the cursor cell and advances the column; the
cell written therefore lies inside the 25×80 grid. -/
theorem C8_write_byte_wraps_before_placing (w : VgaWriter) (b : Nat)
    (hb : b ≠ 10) (hcol : w.cursor_position.2 = BUFFER_WIDTH) :
    ((write_byte w b).cursor_position
      = (if w.cursor_position.1 < BUFFER_HEIGHT - 1
          then w.cursor_position.1 + 1 else BUFFER_HEIGHT - 1, 1)) ∧
    (write_byte w b).cursor_position.1 < BUFFER_HEIGHT ∧
    (write_byte w b).buffer (write_byte w b).cursor_position.1 0
      = ⟨b, w.color_code⟩ ∧
    (w.cursor_position.1 < BUFFER_HEIGHT - 1 →
      ∀ r c, ¬(r = w.cursor_position.1 + 1 ∧ c = 0) →
        (write_byte w b).buffer r c = w.buffer r c) ∧
    (BUFFER_HEIGHT - 1 ≤ w.cursor_position.1 →
      (∀ r c, r < BUFFER_HEIGHT - 1 → c < BUFFER_WIDTH →
        (write_byte w b).buffer r c = w.buffer (r + 1) c) ∧
      (∀ c, 0 < c → c < BUFFER_WIDTH →
        (write_byte w b).buffer (BUFFER_HEIGHT - 1) c = ⟨0x20, w.color_code⟩)) := by
  have hwide : BUFFER_WIDTH ≤ w.cursor_position.2 := le_of_eq hcol.symm
  simp only [write_byte, if_neg hb, if_pos hwide]
  by_cases hrow : w.cursor_position.1 < BUFFER_HEIGHT - 1
  · have hc := new_line_cursor w
    rw [if_neg (by omega)] at hc
    have hbuf := new_line_buffer_low w hrow
    have hcol2 := new_line_color w
    have hbh : (0 : Nat) < BUFFER_HEIGHT := by simp [BUFFER_HEIGHT]
    refine ⟨?_, ?_, ?_, ?_, ?_⟩
    · simp only [hc]
      rw [if_pos hrow]
    · simp only [hc]
      simp only [BUFFER_HEIGHT] at hrow ⊢
      omega
    · simp only [hc, hcol2, hbuf, writeCell]
      simp
    · intro _ r c hne
      simp only [hc, hcol2, hbuf, writeCell]
      rw [if_neg (by omega)]
    · intro habs
      omega
  · have hhigh : BUFFER_HEIGHT - 1 ≤ w.cursor_position.1 := by omega
    have hc := new_line_cursor w
    rw [if_pos hhigh] at hc
    have hbuf := new_line_buffer_high w hhigh
    have hcol2 := new_line_color w
    refine ⟨?_, ?_, ?_, ?_, ?_⟩
    · simp only [hc]
      rw [if_neg hrow]
    · simp only [hc]
      simp [BUFFER_HEIGHT]
    · simp only [hc, hcol2, writeCell]
      simp
    · intro habs
      omega
    · refine fun _ => ⟨?_, ?_⟩
      · intro r c hr hcw
        simp only [hc, hcol2, writeCell]
        rw [if_neg (by omega), hbuf]
        rw [if_neg (by omega), if_pos ⟨hr, hcw⟩]
      · intro c hc0 hcw
        simp only [hc, hcol2, writeCell]
        rw [if_neg (by omega), hbuf]
        rw [if_pos ⟨rfl, hcw⟩]

/-- Witness for C8: a non-newline byte written at `(24, 80)`. -/
theorem C8_write_byte_wraps_before_placing_witness :
    (write_byte wrapWriter 66).cursor_position.2 = 1 ∧
    (write_byte wrapWriter 66).cursor_position.1 < BUFFER_HEIGHT := by
  obtain ⟨h1, h2, _, _, _⟩ :=
    C8_write_byte_wraps_before_placing wrapWriter 66 (by decide) rfl
  exact ⟨by rw [h1], h2⟩

/-- C10: `add_scancode` is total (never panics) and behaves by cases: on an
uninitialized queue it warns and changes nothing; on a full queue it warns,
drops the byte and leaves the queue contents unchanged; otherwise it pushes
the byte at the back, and `WAKER.wake()` runs exactly on that success path
(taking the registered waker, none on the other paths). -/
theorem C10_add_scancode_cases (s : ScancodeQueueState) (b : Nat) :
    (s.initialized = false →
      add_scancode s b = ⟨s, false, none, some KbWarning.queueUninitialized⟩) ∧
    (s.initialized = true → QUEUE_CAPACITY ≤ s.queue.length →
      add_scancode s b = ⟨s, false, none, some KbWarning.queueFull⟩) ∧
    (s.initialized = true → s.queue.length < QUEUE_CAPACITY →
      add_scancode s b
        = ⟨{ s with queue := s.queue ++ [b], waker := none }, true, s.waker, none⟩) ∧
    ((add_scancode s b).wakeCalled = true ↔
      s.initialized = true ∧ s.queue.length < QUEUE_CAPACITY) := by
  refine ⟨?_, ?_, ?_, ?_⟩
  · intro h
    simp [add_scancode, h]
  · intro h1 h2
    simp [add_scancode, h1, if_pos h2]
  · intro h1 h2
    simp [add_scancode, h1, Nat.not_le.mpr h2]
  · by_cases h1 : s.initialized
    · by_cases h2 : QUEUE_CAPACITY ≤ s.queue.length
      · simp [add_scancode, h1, if_pos h2]
        exact h2
      · simp [add_scancode, h1, h2]
        omega
    · simp [add_scancode, h1]

/-- Witness for C10 on a concrete initialized, non-full queue. -/
theorem C10_add_scancode_cases_witness :
    add_scancode ⟨true, [7], some 5⟩ 9
      = ⟨⟨true, [7, 9], none⟩, true, some 5, none⟩ := by
  have h := (C10_add_scancode_cases ⟨true, [7], some 5⟩ 9).2.2.1 rfl (by decide)
  simpa using h

/-- After `n` calls the frame allocator still holds the map, with counter
`n`. -/
theorem frame_calls_closed (memory_map : List MemoryRegion) (n : Nat) :
    frame_calls memory_map n = ⟨memory_map, n⟩ := by
  induction n with
  | zero => rfl
  | succ n ih => simp [frame_calls, allocate_frame, ih]

/-- C5: the `n`-th call (counting from 0) of `allocate_frame` returns the
`n`-th element of the frame sequence — Usable regions in map order, each
stepped by 4096 bytes from its start up to but not including its end, every
address aligned down to its 4 KiB frame — then increments the counter; once
the counter passes the number of usable frames the result is absent, and so
is every later call's. -/
theorem C5_allocate_frame_nth (memory_map : List MemoryRegion) (n : Nat) :
    (allocate_frame (frame_calls memory_map n)).1
        = (usable_frames memory_map).get? n ∧
    (allocate_frame (frame_calls memory_map n)).2.next = n + 1 ∧
    ((usable_frames memory_map).length ≤ n →
      ∀ k, n ≤ k → (allocate_frame (frame_calls memory_map k)).1 = none) := by
  refine ⟨?_, ?_, ?_⟩
  · rw [frame_calls_closed]
    rfl
  · rw [frame_calls_closed]
    rfl
  · intro hlen k hk
    rw [frame_calls_closed]
    simp only [allocate_frame]
    exact List.get?_eq_none.mpr (le_trans hlen hk)

/-- Witness for C5: a map with one Usable and one Reserved region. -/
theorem C5_allocate_frame_nth_witness :
    (allocate_frame (frame_calls
        [⟨0x1000, 0x3000, MemoryRegionType.Usable⟩,
         ⟨0x3000, 0x4000, MemoryRegionType.Reserved⟩] 0)).1 = some 0x1000 ∧
    (allocate_frame (frame_calls
        [⟨0x1000, 0x3000, MemoryRegionType.Usable⟩,
         ⟨0x3000, 0x4000, MemoryRegionType.Reserved⟩] 3)).1 = none := by
  constructor
  · rw [(C5_allocate_frame_nth _ 0).1]
    decide
  · exact (C5_allocate_frame_nth _ 3).2.2 (by decide) 3 (by decide)

/-- `checked_add` on an in-range sum. -/
theorem checked_add_eq_some (a b : Nat) (h : a + b < USIZE) :
    checked_add a b = some (a + b) := if_pos h

/-- `checked_add` on an overflowing sum. -/
theorem checked_add_eq_none (a b : Nat) (h : ¬a + b < USIZE) :
    checked_add a b = none := if_neg h

/-- Characterization of `alloc_from_region`: success exactly under the
first-fit suitability conditions, and the returned address is the aligned
region start. -/
theorem alloc_from_region_some_iff (r : Region) (size align a : Nat) :
    alloc_from_region r size align = some a ↔
      (align_up r.addr align + size < USIZE ∧
       align_up r.addr align + size ≤ r.end_addr ∧
       ¬(0 < r.end_addr - (align_up r.addr align + size) ∧
         r.end_addr - (align_up r.addr align + size) < NODE_SIZE) ∧
       a = align_up r.addr align) := by
  by_cases h1 : align_up r.addr align + size < USIZE
  · simp only [alloc_from_region, checked_add_eq_some _ _ h1]
    by_cases h2 : r.end_addr < align_up r.addr align + size
    · rw [if_pos h2]
      constructor
      · intro h
        exact Option.noConfusion h
      · intro hc
        exact absurd hc.2.1 (by omega)
    · rw [if_neg h2]
      by_cases h3 : 0 < r.end_addr - (align_up r.addr align + size) ∧
          r.end_addr - (align_up r.addr align + size) < NODE_SIZE
      · rw [if_pos h3]
        constructor
        · intro h
          exact Option.noConfusion h
        · intro hc
          exact (hc.2.2.1 h3).elim
      · rw [if_neg h3]
        simp only [Option.some.injEq]
        constructor
        · intro hval
          exact ⟨h1, by omega, h3, hval.symm⟩
        · intro hc
          exact hc.2.2.2.symm
  · simp only [alloc_from_region, checked_add_eq_none _ _ h1]
    constructor
    · intro h
      exact Option.noConfusion h
    · intro hc
      exact (h1 hc.1).elim

/-- Failure characterization of `alloc_from_region`. -/
theorem alloc_from_region_none_iff (r : Region) (size align : Nat) :
    alloc_from_region r size align = none ↔
      ¬(align_up r.addr align + size < USIZE ∧
        align_up r.addr align + size ≤ r.end_addr ∧
        ¬(0 < r.end_addr - (align_up r.addr align + size) ∧
          r.end_addr - (align_up r.addr align + size) < NODE_SIZE)) := by
  constructor
  · intro h hcond
    have hsome := (alloc_from_region_some_iff r size align (align_up r.addr align)).mpr
      ⟨hcond.1, hcond.2.1, hcond.2.2, rfl⟩
    rw [h] at hsome
    exact Option.noConfusion hsome
  · intro h
    cases ha : alloc_from_region r size align with
    | none => rfl
    | some a =>
      obtain ⟨h1, h2, h3, _⟩ := (alloc_from_region_some_iff r size align a).mp ha
      exact absurd ⟨h1, h2, h3⟩ h

/-- First-fit characterization of `find_region`: on success the returned
region is the first suitable one (all earlier ones unsuitable), it is
detached with the list order otherwise kept, and the returned address comes
from `alloc_from_region`; failure means no region is suitable. -/
theorem find_region_spec (size align : Nat) : ∀ free : List Region,
    (∀ region alloc_start rest,
      find_region free size align = some (region, alloc_start, rest) →
      ∃ l1 l2, free = l1 ++ region :: l2 ∧ rest = l1 ++ l2 ∧
        (∀ x ∈ l1, alloc_from_region x size align = none) ∧
        alloc_from_region region size align = some alloc_start) ∧
    (find_region free size align = none ↔
      ∀ x ∈ free, alloc_from_region x size align = none) := by
  intro free
  induction free with
  | nil =>
    constructor
    · intro region alloc_start rest h
      simp [find_region] at h
    · simp [find_region]
  | cons r rest ih =>
    cases ha : alloc_from_region r size align with
    | some a =>
      constructor
      · intro region alloc_start rest2 h
        simp only [find_region, ha, Option.some.injEq, Prod.mk.injEq] at h
        obtain ⟨rfl, rfl, rfl⟩ := h
        refine ⟨[], rest, rfl, rfl, ?_, ha⟩
        intro x hx
        cases hx
      · constructor
        · intro h
          simp only [find_region, ha] at h
          exact Option.noConfusion h
        · intro h
          have hr := h r (List.mem_cons_self r rest)
          rw [hr] at ha
          exact Option.noConfusion ha
    | none =>
      constructor
      · intro region alloc_start rest2 h
        simp only [find_region, ha] at h
        cases hf : find_region rest size align with
        | none =>
          rw [hf] at h
          exact Option.noConfusion h
        | some v =>
          obtain ⟨rf, af, restf⟩ := v
          rw [hf] at h
          simp only [Option.some.injEq, Prod.mk.injEq] at h
          obtain ⟨hreg, haf, hrest⟩ := h
          obtain ⟨l1, l2, he1, he2, hnone, hsome⟩ := ih.1 rf af restf hf
          refine ⟨r :: l1, l2, ?_, ?_, ?_, ?_⟩
          · rw [he1, hreg]
            rfl
          · rw [← hrest, he2]
            rfl
          · intro x hx
            rcases List.mem_cons.mp hx with hx | hx
            · rw [hx]
              exact ha
            · exact hnone x hx
          · rw [← hreg, ← haf]
            exact hsome
      · constructor
        · intro h x hx
          simp only [find_region, ha] at h
          rcases List.mem_cons.mp hx with hx | hx
          · rw [hx]
            exact ha
          · cases hf : find_region rest size align with
            | none => exact (ih.2.mp hf) x hx
            | some v =>
              obtain ⟨rf, af, restf⟩ := v
              rw [hf] at h
              exact Option.noConfusion h
        · intro h
          simp only [find_region, ha]
          have hrest : find_region rest size align = none :=
            ih.2.mpr (fun x hx => h x (List.mem_cons_of_mem r hx))
          rw [hrest]

/-- Unfolding of a successful `ll_alloc`. -/
theorem ll_alloc_of_found (free : List Region) (lsize lalign : Nat)
    (region : Region) (alloc_start : Nat) (rest : List Region)
    (h : find_region free (size_align lsize lalign).1 (size_align lsize lalign).2
        = some (region, alloc_start, rest)) :
    ll_alloc free lsize lalign
      = (some alloc_start,
          if 0 < region.end_addr - (alloc_start + (size_align lsize lalign).1)
          then (⟨alloc_start + (size_align lsize lalign).1,
                region.end_addr - (alloc_start + (size_align lsize lalign).1)⟩ : Region)
              :: rest
          else rest) := by
  simp only [ll_alloc, h, add_free_region]

/-- Unfolding of a failing `ll_alloc`: null pointer, free list untouched. -/
theorem ll_alloc_of_none (free : List Region) (lsize lalign : Nat)
    (h : find_region free (size_align lsize lalign).1 (size_align lsize lalign).2
        = none) :
    ll_alloc free lsize lalign = (none, free) := by
  simp only [ll_alloc, h]

/-- C2: for every free list and every adjusted request, `find_region` picks
the first region in list order whose aligned start plus the size neither
overflows nor overruns the region nor leaves a tail strictly between 0 and
the node size; on success that region is detached (order preserved), the
block address is the aligned region start, and `alloc` reinserts the excess
tail exactly when it is non-zero (then necessarily at least the node size);
when no region is suitable `alloc` returns the null pointer with the list
unchanged. -/
theorem C2_ll_alloc_first_fit (free : List Region) (size align : Nat) :
    (∀ r a, alloc_from_region r size align = some a ↔
      (align_up r.addr align + size < USIZE ∧
       align_up r.addr align + size ≤ r.end_addr ∧
       ¬(0 < r.end_addr - (align_up r.addr align + size) ∧
         r.end_addr - (align_up r.addr align + size) < NODE_SIZE) ∧
       a = align_up r.addr align)) ∧
    (∀ region alloc_start rest,
      find_region free size align = some (region, alloc_start, rest) →
      ∃ l1 l2, free = l1 ++ region :: l2 ∧ rest = l1 ++ l2 ∧
        (∀ x ∈ l1, alloc_from_region x size align = none) ∧
        alloc_from_region region size align = some alloc_start) ∧
    (find_region free size align = none ↔
      ∀ x ∈ free, alloc_from_region x size align = none) ∧
    (∀ lsize lalign, size_align lsize lalign = (size, align) →
      (find_region free size align = none → ll_alloc free lsize lalign = (none, free)) ∧
      (∀ region alloc_start rest,
        find_region free size align = some (region, alloc_start, rest) →
        ll_alloc free lsize lalign
          = (some alloc_start,
              if 0 < region.end_addr - (alloc_start + size)
              then (⟨alloc_start + size,
                    region.end_addr - (alloc_start + size)⟩ : Region) :: rest
              else rest) ∧
        (0 < region.end_addr - (alloc_start + size) →
          NODE_SIZE ≤ region.end_addr - (alloc_start + size)))) := by
  refine ⟨fun r a => alloc_from_region_some_iff r size align a,
    (find_region_spec size align free).1,
    (find_region_spec size align free).2, ?_⟩
  intro lsize lalign hsa
  have h1 : (size_align lsize lalign).1 = size := by rw [hsa]
  have h2 : (size_align lsize lalign).2 = align := by rw [hsa]
  constructor
  · intro hnone
    apply ll_alloc_of_none
    rw [h1, h2]
    exact hnone
  · intro region alloc_start rest hfind
    have hfound := ll_alloc_of_found free lsize lalign region alloc_start rest
      (by rw [h1, h2]; exact hfind)
    rw [h1] at hfound
    refine ⟨hfound, ?_⟩
    intro hpos
    obtain ⟨l1, l2, _, _, _, hsome⟩ :=
      (find_region_spec size align free).1 region alloc_start rest hfind
    obtain ⟨hov, hle, hno, hval⟩ :=
      (alloc_from_region_some_iff region size align alloc_start).mp hsome
    rw [hval] at hpos ⊢
    omega

/-- Witness for C2: a 64-byte region at 4096 serves a 16-byte node-aligned
request; the 48-byte excess tail is reinserted. -/
theorem C2_ll_alloc_first_fit_witness :
    ll_alloc [⟨4096, 64⟩] 16 8 = (some 4096, [⟨4112, 48⟩]) := by
  obtain ⟨_, _, _, halloc⟩ := C2_ll_alloc_first_fit [⟨4096, 64⟩] 16 8
  have h := (halloc 16 8 (by decide)).2 ⟨4096, 64⟩ 4096 [] (by decide)
  rw [h.1]
  decide

/-- C4: an allocation request that cannot be satisfied — for the bump
allocator an aligned end that overflows or passes `heap_end`, for the
linked-list allocator the absence of any suitable free region — makes
`alloc` return the null pointer without panicking, with the allocator state
(bump pointer and count, respectively the free list) exactly as before the
call. -/
theorem C4_alloc_failure_null_unchanged :
    (∀ (s : BumpState) (lsize lalign : Nat),
      (USIZE ≤ align_up s.next lalign + lsize ∨
        s.heap_end < align_up s.next lalign + lsize) →
      bump_alloc s lsize lalign = (none, s)) ∧
    (∀ (free : List Region) (lsize lalign : Nat),
      (∀ r ∈ free, alloc_from_region r
        (size_align lsize lalign).1 (size_align lsize lalign).2 = none) →
      ll_alloc free lsize lalign = (none, free)) := by
  constructor
  · intro s lsize lalign h
    by_cases hov : align_up s.next lalign + lsize < USIZE
    · have hend : s.heap_end < align_up s.next lalign + lsize := by
        rcases h with h | h
        · omega
        · exact h
      simp only [bump_alloc, checked_add_eq_some _ _ hov]
      rw [if_pos hend]
    · simp only [bump_alloc, checked_add_eq_none _ _ hov]
  · intro free lsize lalign h
    exact ll_alloc_of_none free lsize lalign
      ((find_region_spec (size_align lsize lalign).1 (size_align lsize lalign).2 free).2.mpr h)

/-- Witness for C4: a bump request past `heap_end`, and a free list whose
only region is too small. -/
theorem C4_alloc_failure_null_unchanged_witness :
    bump_alloc ⟨4096, 4160, 4096, 0⟩ 128 8 = (none, ⟨4096, 4160, 4096, 0⟩) ∧
    ll_alloc [⟨4096, 24⟩] 64 8 = (none, [⟨4096, 24⟩]) := by
  obtain ⟨hb, hl⟩ := C4_alloc_failure_null_unchanged
  exact ⟨hb ⟨4096, 4160, 4096, 0⟩ 128 8 (Or.inr (by decide)),
    hl [⟨4096, 24⟩] 64 8 (by decide)⟩

/-- The idle-protocol invariant is preserved by every step: a halted CPU
has an empty ready queue, and at the re-check point interrupts are off. -/
theorem exec_step_inv (s s' : ExecState) (hstep : ExecStep s s')
    (hinv : (s.halted = true → s.task_queue = []) ∧
      (s.pc = ExecPc.recheck → s.interruptsEnabled = false)) :
    (s'.halted = true → s'.task_queue = []) ∧
    (s'.pc = ExecPc.recheck → s'.interruptsEnabled = false) := by
  cases hstep with
  | irq t hint hcap =>
    exact ⟨fun h => Bool.noConfusion h, fun h => hinv.2 h⟩
  | checkEmptyTrue hpc hh hq =>
    exact ⟨fun h => hinv.1 h, fun h => ExecPc.noConfusion h⟩
  | checkEmptyFalse hpc hh hq =>
    exact ⟨fun h => hinv.1 h, fun h => ExecPc.noConfusion h⟩
  | disableInterrupts hpc hh =>
    refine ⟨fun h => ?_, fun _ => rfl⟩
    have h2 : s.halted = true := h
    rw [hh] at h2
    exact Bool.noConfusion h2
  | enableAndHlt hpc hh hq =>
    exact ⟨fun _ => hq, fun h => ExecPc.noConfusion h⟩
  | enableInterrupts hpc hh hq =>
    refine ⟨fun h => ?_, fun h => ExecPc.noConfusion h⟩
    have h2 : s.halted = true := h
    rw [hh] at h2
    exact Bool.noConfusion h2

/-- The invariant holds in every state reachable from one satisfying it. -/
theorem exec_reach_inv (s0 s : ExecState)
    (h0 : (s0.halted = true → s0.task_queue = []) ∧
      (s0.pc = ExecPc.recheck → s0.interruptsEnabled = false))
    (hre : Relation.ReflTransGen ExecStep s0 s) :
    (s.halted = true → s.task_queue = []) ∧
    (s.pc = ExecPc.recheck → s.interruptsEnabled = false) := by
  induction hre with
  | refl => exact h0
  | tail hab hbc ih => exact exec_step_inv _ _ hbc ih

/-- C1: starting a `sleep_if_idle` iteration (interrupts on, not halted, at
the outer emptiness check), in every reachable state a halted CPU has an
empty ready queue; the step that halts can only fire from the re-check
point with interrupts disabled and the queue observed empty, and it
re-enables interrupts atomically with halting; and when the re-check sees a
non-empty queue the executor re-enables interrupts and completes the
iteration without halting. -/
theorem C1_sleep_if_idle_no_lost_wakeup (q0 : List Nat) (s : ExecState)
    (hreach : Relation.ReflTransGen ExecStep (execStart q0) s) :
    (s.halted = true → s.task_queue = []) ∧
    (∀ s', ExecStep s s' → s.halted = false → s'.halted = true →
      s.pc = ExecPc.recheck ∧ s.interruptsEnabled = false ∧
      s.task_queue = [] ∧ s'.interruptsEnabled = true ∧ s'.task_queue = []) ∧
    (∀ s', ExecStep s s' → s.pc = ExecPc.recheck → s.task_queue ≠ [] →
      s'.halted = false ∧ s'.interruptsEnabled = true ∧
      s'.pc = ExecPc.donePc ∧ s'.task_queue = s.task_queue) := by
  have hinv := exec_reach_inv (execStart q0) s ⟨fun h => Bool.noConfusion h,
    fun h => ExecPc.noConfusion h⟩ hreach
  refine ⟨hinv.1, ?_, ?_⟩
  · intro s' hstep hh hh'
    cases hstep with
    | irq t hint hcap => exact Bool.noConfusion hh'
    | checkEmptyTrue hpc2 h2 hq2 =>
      have h3 : s.halted = true := hh'
      rw [hh] at h3
      exact Bool.noConfusion h3
    | checkEmptyFalse hpc2 h2 hq2 =>
      have h3 : s.halted = true := hh'
      rw [hh] at h3
      exact Bool.noConfusion h3
    | disableInterrupts hpc2 h2 =>
      have h3 : s.halted = true := hh'
      rw [hh] at h3
      exact Bool.noConfusion h3
    | enableAndHlt hpc2 h2 hq2 =>
      exact ⟨hpc2, hinv.2 hpc2, hq2, rfl, hq2⟩
    | enableInterrupts hpc2 h2 hq2 =>
      have h3 : s.halted = true := hh'
      rw [hh] at h3
      exact Bool.noConfusion h3
  · intro s' hstep hpc hq
    cases hstep with
    | irq t hint hcap =>
      have h3 : s.interruptsEnabled = true := hint
      rw [hinv.2 hpc] at h3
      exact Bool.noConfusion h3
    | checkEmptyTrue hpc2 h2 hq2 =>
      rw [hpc] at hpc2
      exact ExecPc.noConfusion hpc2
    | checkEmptyFalse hpc2 h2 hq2 =>
      rw [hpc] at hpc2
      exact ExecPc.noConfusion hpc2
    | disableInterrupts hpc2 h2 =>
      rw [hpc] at hpc2
      exact ExecPc.noConfusion hpc2
    | enableAndHlt hpc2 h2 hq2 =>
      exact absurd hq2 hq
    | enableInterrupts hpc2 h2 hq2 =>
      exact ⟨h2, rfl, rfl, rfl⟩

/-- Witness for C1: the executor runs the idle protocol to the halt on an
empty queue; the theorem yields that the queue is empty at the halt. -/
theorem C1_sleep_if_idle_no_lost_wakeup_witness :
    (⟨[], true, true, ExecPc.donePc⟩ : ExecState).task_queue = ([] : List Nat) := by
  have h1 : ExecStep (execStart []) ⟨[], true, false, ExecPc.preDisable⟩ :=
    ExecStep.checkEmptyTrue (execStart []) rfl rfl rfl
  have h2 : ExecStep (⟨[], true, false, ExecPc.preDisable⟩ : ExecState)
      ⟨[], false, false, ExecPc.recheck⟩ :=
    ExecStep.disableInterrupts _ rfl rfl
  have h3 : ExecStep (⟨[], false, false, ExecPc.recheck⟩ : ExecState)
      ⟨[], true, true, ExecPc.donePc⟩ :=
    ExecStep.enableAndHlt _ rfl rfl rfl
  have hreach : Relation.ReflTransGen ExecStep (execStart [])
      ⟨[], true, true, ExecPc.donePc⟩ :=
    Relation.ReflTransGen.head h1 (Relation.ReflTransGen.head h2
      (Relation.ReflTransGen.head h3 Relation.ReflTransGen.refl))
  exact (C1_sleep_if_idle_no_lost_wakeup [] _ hreach).1 rfl

/-- The poll-protocol invariant is preserved by every step: a returned
result is never end-of-stream; a pending result leaves the poller's waker
registered unless a producer wake already fired; and at the second pop the
waker is registered unless a wake already fired. -/
theorem kb_step_inv (cw : Nat) (s s' : PollState) (hstep : KbStep cw s s')
    (hinv : (∀ r, s.result = some r → r ≠ PollRes.ready none) ∧
      (s.result = some PollRes.pending → s.waker = some cw ∨ s.woken = true) ∧
      (s.pc = PollPc.secondPop → s.waker = some cw ∨ s.woken = true)) :
    (∀ r, s'.result = some r → r ≠ PollRes.ready none) ∧
    (s'.result = some PollRes.pending → s'.waker = some cw ∨ s'.woken = true) ∧
    (s'.pc = PollPc.secondPop → s'.waker = some cw ∨ s'.woken = true) := by
  cases hstep with
  | producerPush b hcap =>
    exact ⟨hinv.1, hinv.2.1, hinv.2.2⟩
  | producerWakeSome w hw =>
    exact ⟨hinv.1, fun _ => Or.inr rfl, fun _ => Or.inr rfl⟩
  | producerWakeNone hw =>
    exact hinv
  | producerFullDrop b hcap =>
    exact hinv
  | pop1Some b rest hpc hq =>
    refine ⟨?_, ?_, ?_⟩
    · intro r hr
      have : PollRes.ready (some b) = r := by
        have h2 : some (PollRes.ready (some b)) = some r := hr
        exact Option.some.inj h2
      rw [← this]
      intro hcon
      have := (PollRes.ready.inj hcon)
      exact Option.noConfusion this
    · intro h
      have h2 : some (PollRes.ready (some b)) = some PollRes.pending := h
      have := Option.some.inj h2
      exact PollRes.noConfusion this
    · intro h
      exact PollPc.noConfusion h
  | pop1None hpc hq =>
    exact ⟨hinv.1, hinv.2.1, fun h => PollPc.noConfusion h⟩
  | registerStep hpc =>
    exact ⟨hinv.1, fun _ => Or.inl rfl, fun _ => Or.inl rfl⟩
  | pop2Some b rest hpc hq =>
    refine ⟨?_, ?_, ?_⟩
    · intro r hr
      have h2 : some (PollRes.ready (some b)) = some r := hr
      rw [← Option.some.inj h2]
      intro hcon
      exact Option.noConfusion (PollRes.ready.inj hcon)
    · intro h
      have h2 : some (PollRes.ready (some b)) = some PollRes.pending := h
      exact PollRes.noConfusion (Option.some.inj h2)
    · intro h
      exact PollPc.noConfusion h
  | pop2None hpc hq =>
    refine ⟨?_, ?_, ?_⟩
    · intro r hr
      have h2 : some PollRes.pending = some r := hr
      rw [← Option.some.inj h2]
      intro hcon
      exact PollRes.noConfusion hcon
    · intro _
      exact hinv.2.2 hpc
    · intro h
      exact PollPc.noConfusion h

/-- The poll-protocol invariant holds in every reachable state of a poll
started on any queue contents. -/
theorem kb_reach_inv (cw : Nat) (q0 : List Nat) (s : PollState)
    (hre : Relation.ReflTransGen (KbStep cw) (pollStart q0) s) :
    (∀ r, s.result = some r → r ≠ PollRes.ready none) ∧
    (s.result = some PollRes.pending → s.waker = some cw ∨ s.woken = true) ∧
    (s.pc = PollPc.secondPop → s.waker = some cw ∨ s.woken = true) := by
  induction hre with
  | refl =>
    exact ⟨fun r hr => Option.noConfusion hr,
      fun h => Option.noConfusion h, fun h => PollPc.noConfusion h⟩
  | tail hab hbc ih => exact kb_step_inv cw _ _ hbc ih

/-- C7: `poll_next` follows the three-step race-closing protocol.  In every
interleaving with the IRQ producer: a non-empty queue at the first pop
yields the head byte immediately; a non-empty queue at the second pop
yields the head byte and removes the registered waker; the step that
returns `Pending` happens only at the second pop with the queue observed
empty and the waker left registered (unless the producer's wake already
fired, i.e. the task is already woken — no wakeup is lost); and the poll
never returns end-of-stream. -/
theorem C7_poll_next_race_closing (cw : Nat) (q0 : List Nat) (s : PollState)
    (hreach : Relation.ReflTransGen (KbStep cw) (pollStart q0) s) :
    (∀ r, s.result = some r → r ≠ PollRes.ready none) ∧
    (s.result = some PollRes.pending → s.waker = some cw ∨ s.woken = true) ∧
    (∀ s', KbStep cw s s' → s.result = none →
      s'.result = some PollRes.pending →
      s.pc = PollPc.secondPop ∧ s.queue = [] ∧ s'.queue = [] ∧
      (s'.waker = some cw ∨ s'.woken = true)) ∧
    (∀ s', KbStep cw s s' → s.pc = PollPc.firstPop → s.queue ≠ [] →
      s'.pc = PollPc.firstPop ∨
      ∃ b rest, s.queue = b :: rest ∧
        s'.result = some (PollRes.ready (some b)) ∧ s'.queue = rest ∧
        s'.pc = PollPc.donePc) ∧
    (∀ s', KbStep cw s s' → s.pc = PollPc.secondPop → s.queue ≠ [] →
      s'.pc = PollPc.secondPop ∨
      ∃ b rest, s.queue = b :: rest ∧
        s'.result = some (PollRes.ready (some b)) ∧ s'.queue = rest ∧
        s'.waker = none ∧ s'.pc = PollPc.donePc) := by
  have hinv := kb_reach_inv cw q0 s hreach
  refine ⟨hinv.1, hinv.2.1, ?_, ?_, ?_⟩
  · intro s' hstep hres hres'
    cases hstep with
    | producerPush b hcap =>
      have h2 : s.result = some PollRes.pending := hres'
      rw [hres] at h2
      exact Option.noConfusion h2
    | producerWakeSome w hw =>
      have h2 : s.result = some PollRes.pending := hres'
      rw [hres] at h2
      exact Option.noConfusion h2
    | producerWakeNone hw =>
      rw [hres] at hres'
      exact Option.noConfusion hres'
    | producerFullDrop b hcap =>
      rw [hres] at hres'
      exact Option.noConfusion hres'
    | pop1Some b rest hpc hq =>
      have h2 : some (PollRes.ready (some b)) = some PollRes.pending := hres'
      exact PollRes.noConfusion (Option.some.inj h2)
    | pop1None hpc hq =>
      have h2 : s.result = some PollRes.pending := hres'
      rw [hres] at h2
      exact Option.noConfusion h2
    | registerStep hpc =>
      have h2 : s.result = some PollRes.pending := hres'
      rw [hres] at h2
      exact Option.noConfusion h2
    | pop2Some b rest hpc hq =>
      have h2 : some (PollRes.ready (some b)) = some PollRes.pending := hres'
      exact PollRes.noConfusion (Option.some.inj h2)
    | pop2None hpc hq =>
      exact ⟨hpc, hq, hq, hinv.2.2 hpc⟩
  · intro s' hstep hpc hq
    cases hstep with
    | producerPush b hcap => exact Or.inl hpc
    | producerWakeSome w hw => exact Or.inl hpc
    | producerWakeNone hw => exact Or.inl hpc
    | producerFullDrop b hcap => exact Or.inl hpc
    | pop1Some b rest hpc2 hq2 =>
      exact Or.inr ⟨b, rest, hq2, rfl, rfl, rfl⟩
    | pop1None hpc2 hq2 => exact absurd hq2 hq
    | registerStep hpc2 =>
      rw [hpc] at hpc2
      exact PollPc.noConfusion hpc2
    | pop2Some b rest hpc2 hq2 =>
      rw [hpc] at hpc2
      exact PollPc.noConfusion hpc2
    | pop2None hpc2 hq2 =>
      rw [hpc] at hpc2
      exact PollPc.noConfusion hpc2
  · intro s' hstep hpc hq
    cases hstep with
    | producerPush b hcap => exact Or.inl hpc
    | producerWakeSome w hw => exact Or.inl hpc
    | producerWakeNone hw => exact Or.inl hpc
    | producerFullDrop b hcap => exact Or.inl hpc
    | pop1Some b rest hpc2 hq2 =>
      rw [hpc] at hpc2
      exact PollPc.noConfusion hpc2
    | pop1None hpc2 hq2 =>
      rw [hpc] at hpc2
      exact PollPc.noConfusion hpc2
    | registerStep hpc2 =>
      rw [hpc] at hpc2
      exact PollPc.noConfusion hpc2
    | pop2Some b rest hpc2 hq2 =>
      exact Or.inr ⟨b, rest, hq2, rfl, rfl, rfl, rfl⟩
    | pop2None hpc2 hq2 => exact absurd hq2 hq

/-- Witness for C7: the poll on a queue holding one byte pops it at the
first check; the theorem rules out an end-of-stream result. -/
theorem C7_poll_next_race_closing_witness :
    PollRes.ready (some 3) ≠ PollRes.ready none := by
  have h1 : KbStep 0 (pollStart [3])
      ⟨[], none, PollPc.donePc, some (PollRes.ready (some 3)), false⟩ :=
    KbStep.pop1Some (pollStart [3]) 3 [] rfl rfl
  have hreach : Relation.ReflTransGen (KbStep 0) (pollStart [3])
      ⟨[], none, PollPc.donePc, some (PollRes.ready (some 3)), false⟩ :=
    Relation.ReflTransGen.head h1 Relation.ReflTransGen.refl
  exact (C7_poll_next_race_closing 0 [3] _ hreach).1 _ rfl

/-- Case analysis of one `bump_alloc` call: either it fails leaving the
state untouched, or it returns the aligned bump pointer and advances it by
the request size within the heap. -/
theorem bump_alloc_cases (s : BumpState) (lsize lalign : Nat) :
    ((bump_alloc s lsize lalign).1 = none ∧ (bump_alloc s lsize lalign).2 = s) ∨
    ((bump_alloc s lsize lalign).1 = some (align_up s.next lalign) ∧
     (bump_alloc s lsize lalign).2
        = { s with next := align_up s.next lalign + lsize,
                   allocations := s.allocations + 1 } ∧
     align_up s.next lalign + lsize ≤ s.heap_end ∧
     align_up s.next lalign + lsize < USIZE) := by
  by_cases hov : align_up s.next lalign + lsize < USIZE
  · simp only [bump_alloc, checked_add_eq_some _ _ hov]
    by_cases hend : s.heap_end < align_up s.next lalign + lsize
    · rw [if_pos hend]
      exact Or.inl ⟨rfl, rfl⟩
    · rw [if_neg hend]
      exact Or.inr ⟨rfl, rfl, by omega, hov⟩
  · simp only [bump_alloc, checked_add_eq_none _ _ hov]
    exact Or.inl ⟨by simp, by simp⟩

/-- One legal bump call preserves the heap bounds on the state. -/
theorem bump_step_inv (hs hsz : Nat) (hbound : hs + hsz ≤ 2 ^ 63)
    (s : BumpState) (op : BumpOp) (hv : BumpValidOp s op)
    (hinv : s.heap_start = hs ∧ s.heap_end = hs + hsz ∧
      hs ≤ s.next ∧ s.next ≤ s.heap_end) :
    (bumpStep s op).heap_start = hs ∧ (bumpStep s op).heap_end = hs + hsz ∧
    hs ≤ (bumpStep s op).next ∧ (bumpStep s op).next ≤ (bumpStep s op).heap_end := by
  obtain ⟨hh1, hh2, hn1, hn2⟩ := hinv
  cases op with
  | alloc lsize lalign =>
    obtain ⟨k, hk, rfl⟩ := hv
    simp only [bumpStep]
    rcases bump_alloc_cases s lsize (2 ^ k) with ⟨_, heq⟩ | ⟨_, heq, hle, hov⟩
    · rw [heq]
      exact ⟨hh1, hh2, hn1, hn2⟩
    · rw [heq]
      have hge : s.next ≤ align_up s.next (2 ^ k) := by
        apply align_up_ge s.next k (by omega)
        have hk2 : (2 : Nat) ^ k ≤ 2 ^ 63 := Nat.pow_le_pow_right (by norm_num) hk
        have : s.next ≤ 2 ^ 63 := by omega
        have h64 : (2 : Nat) ^ 63 + 2 ^ 63 ≤ 2 ^ 64 := by norm_num
        omega
      refine ⟨hh1, hh2, ?_, ?_⟩
      · show hs ≤ align_up s.next (2 ^ k) + lsize
        omega
      · show align_up s.next (2 ^ k) + lsize ≤ s.heap_end
        omega
  | dealloc =>
    have hd : bump_dealloc s = { s with allocations := s.allocations - 1, next := if s.allocations - 1 = 0 then s.heap_start else s.next } := rfl
    simp only [bumpStep]
    rw [hd]
    by_cases ha : s.allocations - 1 = 0
    · rw [if_pos ha]
      refine ⟨hh1, hh2, ?_, ?_⟩
      · show hs ≤ s.heap_start
        omega
      · show s.heap_start ≤ s.heap_end
        omega
    · rw [if_neg ha]
      exact ⟨hh1, hh2, hn1, hn2⟩

/-- The heap bounds hold along any legal bump call sequence. -/
theorem bump_inv_foldl (hs hsz : Nat) (hbound : hs + hsz ≤ 2 ^ 63) :
    ∀ (ops : List BumpOp) (s0 : BumpState),
      (s0.heap_start = hs ∧ s0.heap_end = hs + hsz ∧
        hs ≤ s0.next ∧ s0.next ≤ s0.heap_end) →
      BumpValidSeq s0 ops →
      ((ops.foldl bumpStep s0).heap_start = hs ∧
       (ops.foldl bumpStep s0).heap_end = hs + hsz ∧
       hs ≤ (ops.foldl bumpStep s0).next ∧
       (ops.foldl bumpStep s0).next ≤ (ops.foldl bumpStep s0).heap_end) := by
  intro ops
  induction ops with
  | nil => intro s0 h0 _; exact h0
  | cons op ops ih =>
    intro s0 h0 hv
    exact ih (bumpStep s0 op) (bump_step_inv hs hsz hbound s0 op hv.1 h0) hv.2

/-- The heap bounds hold in every reachable bump state. -/
theorem bump_reach_inv (hs hsz : Nat) (hbound : hs + hsz ≤ 2 ^ 63)
    (s : BumpState) (hreach : BumpReachable (bump_init hs hsz) s) :
    s.heap_start = hs ∧ s.heap_end = hs + hsz ∧
    hs ≤ s.next ∧ s.next ≤ s.heap_end := by
  obtain ⟨ops, hv, rfl⟩ := hreach
  apply bump_inv_foldl hs hsz hbound ops (bump_init hs hsz) ?_ hv
  have h63 : (2 : Nat) ^ 63 ≤ 2 ^ 64 - 1 := by norm_num
  refine ⟨rfl, ?_, le_refl hs, ?_⟩
  · show min (hs + hsz) (USIZE - 1) = hs + hsz
    simp only [USIZE]
    omega
  · show hs ≤ min (hs + hsz) (USIZE - 1)
    simp only [USIZE]
    omega

/-- C6: in every reachable bump-allocator state, an `alloc` never moves
`next` down; a successful `alloc` of layout `L` returns
`align_up(next, L.align)`, advances `next` to that address plus `L.size`
and increments the live count; `dealloc` decrements the live count, resets
`next` to `heap_start` exactly when the count reaches 0 (or `next` already
sat there), and otherwise leaves `next` unchanged. -/
theorem C6_bump_monotone_reset (hs hsz : Nat) (hbound : hs + hsz ≤ 2 ^ 63)
    (s : BumpState) (hreach : BumpReachable (bump_init hs hsz) s) :
    (∀ lsize k, k ≤ 63 →
      s.next ≤ ((bump_alloc s lsize (2 ^ k)).2).next ∧
      (∀ p, (bump_alloc s lsize (2 ^ k)).1 = some p →
        p = align_up s.next (2 ^ k) ∧
        ((bump_alloc s lsize (2 ^ k)).2).next = p + lsize ∧
        ((bump_alloc s lsize (2 ^ k)).2).allocations = s.allocations + 1)) ∧
    (0 < s.allocations →
      (bump_dealloc s).allocations = s.allocations - 1 ∧
      ((bump_dealloc s).next = s.heap_start ↔
        ((bump_dealloc s).allocations = 0 ∨ s.next = s.heap_start)) ∧
      (0 < (bump_dealloc s).allocations → (bump_dealloc s).next = s.next) ∧
      s.heap_start ≤ s.next) := by
  obtain ⟨hh1, hh2, hn1, hn2⟩ := bump_reach_inv hs hsz hbound s hreach
  constructor
  · intro lsize k hk
    have hge : s.next ≤ align_up s.next (2 ^ k) := by
      apply align_up_ge s.next k (by omega)
      have hk2 : (2 : Nat) ^ k ≤ 2 ^ 63 := Nat.pow_le_pow_right (by norm_num) hk
      have : s.next ≤ 2 ^ 63 := by omega
      have h64 : (2 : Nat) ^ 63 + 2 ^ 63 ≤ 2 ^ 64 := by norm_num
      omega
    rcases bump_alloc_cases s lsize (2 ^ k) with ⟨hres, heq⟩ | ⟨hres, heq, hle, hov⟩
    · constructor
      · rw [heq]
      · intro p hp
        rw [hres] at hp
        exact Option.noConfusion hp
    · constructor
      · rw [heq]
        show s.next ≤ align_up s.next (2 ^ k) + lsize
        omega
      · intro p hp
        rw [hres] at hp
        have hpv := Option.some.inj hp
        refine ⟨hpv.symm, ?_, ?_⟩
        · rw [heq]
          show align_up s.next (2 ^ k) + lsize = p + lsize
          rw [hpv]
        · rw [heq]
  · intro hpos
    have hd : bump_dealloc s = { s with allocations := s.allocations - 1, next := if s.allocations - 1 = 0 then s.heap_start else s.next } := rfl
    rw [hd]
    by_cases ha : s.allocations - 1 = 0
    · rw [if_pos ha]
      refine ⟨rfl, ?_, ?_, by omega⟩
      · constructor
        · intro _
          exact Or.inl ha
        · intro _
          rfl
      · intro h0
        have h0b : 0 < s.allocations - 1 := h0
        omega
    · rw [if_neg ha]
      refine ⟨rfl, ?_, fun _ => rfl, by omega⟩
      constructor
      · intro h
        exact Or.inr h
      · intro h
        rcases h with h | h
        · have hb : s.allocations - 1 = 0 := h
          exact absurd hb ha
        · exact h

/-- Witness for C6: the heap at 4096 with 1024 bytes, straight after init,
with a 16-byte 8-aligned allocation. -/
theorem C6_bump_monotone_reset_witness :
    (bump_init 4096 1024).next
      ≤ ((bump_alloc (bump_init 4096 1024) 16 (2 ^ 3)).2).next := by
  have h := C6_bump_monotone_reset 4096 1024 (by decide)
    (bump_init 4096 1024) ⟨[], trivial, rfl⟩
  exact (h.1 16 3 (by decide)).1

/-- Region disjointness is symmetric. -/
theorem regionsDisjoint_symm : ∀ {a b : Region},
    RegionsDisjoint a b → RegionsDisjoint b a := fun h => h.symm

/-- A common divisor divides the maximum. -/
theorem dvd_max_of_dvd (d a b : Nat) (ha : d ∣ a) (hb : d ∣ b) :
    d ∣ max a b := by
  rcases le_total a b with h | h
  · rw [Nat.max_eq_right h]
    exact hb
  · rw [Nat.max_eq_left h]
    exact ha

/-- Splitting one region of a pairwise-disjoint family into two pieces
inside it keeps the family pairwise disjoint. -/
theorem pairwise_insert_split (region : Region) (base : List Region)
    (hpw : (region :: base).Pairwise RegionsDisjoint)
    (b e : Region)
    (hb1 : region.addr ≤ b.addr) (hb2 : b.end_addr ≤ e.addr)
    (he2 : e.end_addr ≤ region.end_addr) :
    (e :: b :: base).Pairwise RegionsDisjoint ∧
    (b :: base).Pairwise RegionsDisjoint := by
  rw [List.pairwise_cons] at hpw
  obtain ⟨hreg, hbase⟩ := hpw
  have hbe : b.end_addr ≤ region.end_addr := by
    unfold Region.end_addr at *
    omega
  have hbb : region.addr ≤ e.addr := by
    unfold Region.end_addr at *
    omega
  have hby : ∀ y ∈ base, RegionsDisjoint b y := by
    intro y hy
    rcases hreg y hy with h | h
    · left
      unfold Region.end_addr at *
      omega
    · right
      unfold Region.end_addr at *
      omega
  have hey : ∀ y ∈ base, RegionsDisjoint e y := by
    intro y hy
    rcases hreg y hy with h | h
    · left
      unfold Region.end_addr at *
      omega
    · right
      unfold Region.end_addr at *
      omega
  have hbp : (b :: base).Pairwise RegionsDisjoint := by
    rw [List.pairwise_cons]
    exact ⟨hby, hbase⟩
  refine ⟨?_, hbp⟩
  rw [List.pairwise_cons]
  refine ⟨?_, hbp⟩
  intro y hy
  rcases List.mem_cons.mp hy with hy | hy
  · rw [hy]
    exact Or.inr hb2
  · exact hey y hy

/-- Unfolding of `llStep` on a successful allocation. -/
theorem llStep_alloc_some (s : LLState) (lsize lalign p : Nat)
    (free' : List Region)
    (h : ll_alloc s.free lsize lalign = (some p, free')) :
    llStep s (LLOp.alloc lsize lalign)
      = ⟨free', (p, lsize, lalign) :: s.allocated⟩ := by
  simp only [llStep, h]

/-- Unfolding of `llStep` on a failed allocation. -/
theorem llStep_alloc_none (s : LLState) (lsize lalign : Nat)
    (free' : List Region)
    (h : ll_alloc s.free lsize lalign = (none, free')) :
    llStep s (LLOp.alloc lsize lalign) = ⟨free', s.allocated⟩ := by
  simp only [llStep, h]

/-- The adjusted alignment is a power of two between 8 and the maximal
`usize` alignment. -/
theorem size_align_align_pow (lsize lalign k : Nat) (hk : k ≤ 63)
    (hkeq : lalign = 2 ^ k) :
    ∃ j, 3 ≤ j ∧ j ≤ 63 ∧ (size_align lsize lalign).2 = 2 ^ j := by
  refine ⟨max k 3, le_max_right _ _, by omega, ?_⟩
  have hsa : (size_align lsize lalign).2 = max lalign NODE_ALIGN := rfl
  rw [hsa, hkeq]
  show max (2 ^ k) NODE_ALIGN = 2 ^ max k 3
  have hna : NODE_ALIGN = 2 ^ 3 := rfl
  rw [hna]
  rcases le_total k 3 with h | h
  · rw [Nat.max_eq_right (Nat.pow_le_pow_right (by norm_num) h),
      Nat.max_eq_right h]
  · rw [Nat.max_eq_left (Nat.pow_le_pow_right (by norm_num) h),
      Nat.max_eq_left h]

/-- One legal `alloc` call preserves well-formedness and disjointness of
the allocator's regions: the returned block and the reinserted excess tail
both lie inside the detached region, are node-aligned and at least node
sized, so the family stays pairwise disjoint inside the heap. -/
theorem ll_alloc_preserves_inv (hs he : Nat) (hhe : he ≤ 2 ^ 63)
    (s : LLState) (lsize lalign : Nat)
    (hv : LLValidOp s (LLOp.alloc lsize lalign))
    (hwf : ∀ r ∈ LLRegions s, RegionWF hs he r)
    (hpw : (LLRegions s).Pairwise RegionsDisjoint) :
    (∀ r ∈ LLRegions (llStep s (LLOp.alloc lsize lalign)), RegionWF hs he r) ∧
    (LLRegions (llStep s (LLOp.alloc lsize lalign))).Pairwise RegionsDisjoint := by
  obtain ⟨⟨k, hk, hkeq⟩, hlayout⟩ := hv
  obtain ⟨j, hj3, hj63, hjeq⟩ := size_align_align_pow lsize lalign k hk hkeq
  cases hfr : find_region s.free (size_align lsize lalign).1
      (size_align lsize lalign).2 with
  | none =>
    rw [llStep_alloc_none s lsize lalign s.free (ll_alloc_of_none _ _ _ hfr)]
    exact ⟨hwf, hpw⟩
  | some v =>
    obtain ⟨region, as, rest⟩ := v
    have hll := ll_alloc_of_found s.free lsize lalign region as rest hfr
    rw [llStep_alloc_some s lsize lalign as _ hll]
    obtain ⟨l1, l2, hfree, hrest, hunsuit, hsome⟩ :=
      (find_region_spec (size_align lsize lalign).1
        (size_align lsize lalign).2 s.free).1 region as rest hfr
    obtain ⟨hov, hle, hexc, hasv⟩ :=
      (alloc_from_region_some_iff region (size_align lsize lalign).1
        (size_align lsize lalign).2 as).mp hsome
    have hregmem : region ∈ LLRegions s := by
      unfold LLRegions
      apply List.mem_append_left
      rw [hfree]
      exact List.mem_append_right _ (List.mem_cons_self _ _)
    obtain ⟨hra, hrs, hrlo, hrhi⟩ := hwf region hregmem
    have hrend : region.end_addr = region.addr + region.size := rfl
    have h2j63 : (2 : Nat) ^ j ≤ 2 ^ 63 := Nat.pow_le_pow_right (by norm_num) hj63
    have hpow64 : (2 : Nat) ^ 63 + 2 ^ 63 ≤ 2 ^ 64 := by norm_num
    have hregaddr : region.addr + 2 ^ j ≤ 2 ^ 64 := by omega
    have hge : region.addr ≤ as := by
      rw [hasv, hjeq]
      exact align_up_ge _ j (by omega) hregaddr
    have h8j : (8 : Nat) ∣ 2 ^ j := by
      have h3 : (2 : Nat) ^ 3 ∣ 2 ^ j := pow_dvd_pow 2 hj3
      simpa using h3
    have hdvd_as : (8 : Nat) ∣ as := by
      rw [hasv, hjeq]
      exact dvd_trans h8j (align_up_dvd region.addr j (by omega) hregaddr)
    have hsz16 : NODE_SIZE ≤ (size_align lsize lalign).1 := le_max_right _ _
    have hlalign_pos : (0 : Nat) < lalign := by
      rw [hkeq]
      exact Nat.pos_pow_of_pos k (by norm_num)
    have hdvd_size : (8 : Nat) ∣ (size_align lsize lalign).1 := by
      have hsz : (size_align lsize lalign).1
          = max (align_up lsize ((size_align lsize lalign).2)) NODE_SIZE := rfl
      rw [hsz]
      apply dvd_max_of_dvd
      · rw [hjeq]
        apply dvd_trans h8j
        apply align_up_dvd lsize j (by omega)
        omega
      · decide
    have hblock_hi : as + (size_align lsize lalign).1 ≤ he := by omega
    have hblock_lo : hs ≤ as := by omega
    have has8 : align_up as NODE_ALIGN = as := by
      have hna : NODE_ALIGN = 8 := rfl
      rw [hna]
      exact align_up_eight_of_dvd as hdvd_as (by omega)
    have hwf_block : RegionWF hs he ⟨as, (size_align lsize lalign).1⟩ :=
      ⟨has8, hsz16, hblock_lo, by
        show as + (size_align lsize lalign).1 ≤ he
        exact hblock_hi⟩
    -- the permutation plumbing
    have hbase_perm : List.Perm (LLRegions s)
        (region :: (l1 ++ (l2 ++ s.allocated.map allocRegion))) := by
      unfold LLRegions
      rw [hfree, List.append_assoc]
      exact List.perm_middle
    have hpw_base : (region :: (l1 ++ (l2 ++ s.allocated.map allocRegion))).Pairwise
        RegionsDisjoint :=
      (hbase_perm.pairwise_iff (fun h => regionsDisjoint_symm h)).mp hpw
    have hwf_base : ∀ r ∈ region :: (l1 ++ (l2 ++ s.allocated.map allocRegion)),
        RegionWF hs he r := by
      intro r hr
      exact hwf r (hbase_perm.mem_iff.mpr hr)
    have hwf_exc : 0 < region.end_addr - (as + (size_align lsize lalign).1) →
        RegionWF hs he ⟨as + (size_align lsize lalign).1,
          region.end_addr - (as + (size_align lsize lalign).1)⟩ := by
      intro hx
      refine ⟨?_, ?_, ?_, ?_⟩
      · show align_up (as + (size_align lsize lalign).1) NODE_ALIGN
            = as + (size_align lsize lalign).1
        have hna : NODE_ALIGN = 8 := rfl
        rw [hna]
        apply align_up_eight_of_dvd
        · exact Nat.dvd_add hdvd_as hdvd_size
        · omega
      · show NODE_SIZE ≤ region.end_addr - (as + (size_align lsize lalign).1)
        unfold Region.end_addr at *
        omega
      · show hs ≤ as + (size_align lsize lalign).1
        omega
      · show (as + (size_align lsize lalign).1)
            + (region.end_addr - (as + (size_align lsize lalign).1)) ≤ he
        unfold Region.end_addr at *
        omega
    have hexc_end : (⟨as + (size_align lsize lalign).1,
        region.end_addr - (as + (size_align lsize lalign).1)⟩ : Region).end_addr
        ≤ region.end_addr := by
      show (as + (size_align lsize lalign).1)
          + (region.end_addr - (as + (size_align lsize lalign).1)) ≤ region.end_addr
      omega
    have hsplit := pairwise_insert_split region
      (l1 ++ (l2 ++ s.allocated.map allocRegion)) hpw_base
      ⟨as, (size_align lsize lalign).1⟩
      ⟨as + (size_align lsize lalign).1,
        region.end_addr - (as + (size_align lsize lalign).1)⟩
      hge (le_refl _) hexc_end
    have hmid : List.Perm ((l1 ++ l2)
          ++ ((⟨as, (size_align lsize lalign).1⟩ : Region)
              :: s.allocated.map allocRegion))
        ((⟨as, (size_align lsize lalign).1⟩ : Region)
            :: (l1 ++ (l2 ++ s.allocated.map allocRegion))) := by
      have h : List.Perm ((l1 ++ l2)
            ++ ((⟨as, (size_align lsize lalign).1⟩ : Region)
                :: s.allocated.map allocRegion))
          ((⟨as, (size_align lsize lalign).1⟩ : Region)
            :: ((l1 ++ l2) ++ s.allocated.map allocRegion)) := List.perm_middle
      rw [List.append_assoc l1 l2 (s.allocated.map allocRegion)] at h
      exact h
    by_cases hx : 0 < region.end_addr - (as + (size_align lsize lalign).1)
    · have hT : LLRegions ⟨(if 0 < region.end_addr - (as + (size_align lsize lalign).1)
            then (⟨as + (size_align lsize lalign).1,
                  region.end_addr - (as + (size_align lsize lalign).1)⟩ : Region) :: rest
            else rest), (as, lsize, lalign) :: s.allocated⟩
          = (⟨as + (size_align lsize lalign).1,
              region.end_addr - (as + (size_align lsize lalign).1)⟩ : Region)
            :: ((l1 ++ l2)
              ++ ((⟨as, (size_align lsize lalign).1⟩ : Region)
                  :: s.allocated.map allocRegion)) := by
        unfold LLRegions
        rw [if_pos hx, hrest]
        rfl
      rw [hT]
      have hTperm : List.Perm ((⟨as + (size_align lsize lalign).1,
            region.end_addr - (as + (size_align lsize lalign).1)⟩ : Region)
            :: ((l1 ++ l2)
              ++ ((⟨as, (size_align lsize lalign).1⟩ : Region)
                  :: s.allocated.map allocRegion)))
          ((⟨as + (size_align lsize lalign).1,
              region.end_addr - (as + (size_align lsize lalign).1)⟩ : Region)
            :: (⟨as, (size_align lsize lalign).1⟩ : Region)
            :: (l1 ++ (l2 ++ s.allocated.map allocRegion))) :=
        List.Perm.cons _ hmid
      constructor
      · intro r hr
        rcases List.mem_cons.mp (hTperm.mem_iff.mp hr) with h | h
        · rw [h]
          exact hwf_exc hx
        · rcases List.mem_cons.mp h with h | h
          · rw [h]
            exact hwf_block
          · exact hwf_base r (List.mem_cons_of_mem _ h)
      · exact (hTperm.pairwise_iff (fun h => regionsDisjoint_symm h)).mpr hsplit.1
    · have hT : LLRegions ⟨(if 0 < region.end_addr - (as + (size_align lsize lalign).1)
            then (⟨as + (size_align lsize lalign).1,
                  region.end_addr - (as + (size_align lsize lalign).1)⟩ : Region) :: rest
            else rest), (as, lsize, lalign) :: s.allocated⟩
          = (l1 ++ l2)
              ++ ((⟨as, (size_align lsize lalign).1⟩ : Region)
                  :: s.allocated.map allocRegion) := by
        unfold LLRegions
        rw [if_neg hx, hrest]
        rfl
      rw [hT]
      constructor
      · intro r hr
        rcases List.mem_cons.mp (hmid.mem_iff.mp hr) with h | h
        · rw [h]
          exact hwf_block
        · exact hwf_base r (List.mem_cons_of_mem _ h)
      · exact (hmid.pairwise_iff (fun h => regionsDisjoint_symm h)).mpr hsplit.2

/-- Removing a present record is a permutation-inverse of consing it. -/
theorem perm_cons_removeAllocated (l : List (Nat × Nat × Nat))
    (a : Nat × Nat × Nat) (h : a ∈ l) :
    List.Perm l (a :: removeAllocated l a) := by
  induction l with
  | nil => cases h
  | cons x xs ih =>
    by_cases hx : x = a
    · rw [removeAllocated, if_pos hx, hx]
    · have hmem : a ∈ xs := by
        rcases List.mem_cons.mp h with h2 | h2
        · exact absurd h2.symm hx
        · exact h2
      rw [removeAllocated, if_neg hx]
      exact ((ih hmem).cons x).trans (List.Perm.swap a x (removeAllocated xs a))

/-- A `dealloc` of a live allocation merely moves its region from the
allocated side to the front of the free list: the region family is
permuted, so well-formedness and disjointness carry over. -/
theorem ll_dealloc_preserves_inv (hs he : Nat) (s : LLState)
    (p lsize lalign : Nat)
    (hv : LLValidOp s (LLOp.dealloc p lsize lalign))
    (hwf : ∀ r ∈ LLRegions s, RegionWF hs he r)
    (hpw : (LLRegions s).Pairwise RegionsDisjoint) :
    (∀ r ∈ LLRegions (llStep s (LLOp.dealloc p lsize lalign)), RegionWF hs he r) ∧
    (LLRegions (llStep s (LLOp.dealloc p lsize lalign))).Pairwise RegionsDisjoint := by
  have hmem : (p, lsize, lalign) ∈ s.allocated := hv
  have hperm1 : List.Perm s.allocated
      ((p, lsize, lalign) :: removeAllocated s.allocated (p, lsize, lalign)) :=
    perm_cons_removeAllocated s.allocated (p, lsize, lalign) hmem
  have hperm2 : List.Perm (s.allocated.map allocRegion)
      (allocRegion (p, lsize, lalign)
        :: (removeAllocated s.allocated (p, lsize, lalign)).map allocRegion) := by
    have h := hperm1.map allocRegion
    simpa using h
  have hT : LLRegions (llStep s (LLOp.dealloc p lsize lalign))
      = (⟨p, (size_align lsize lalign).1⟩ : Region)
        :: (s.free ++ (removeAllocated s.allocated (p, lsize, lalign)).map allocRegion) := rfl
  have h1 : List.Perm (s.free ++ s.allocated.map allocRegion)
      (s.free ++ (allocRegion (p, lsize, lalign)
        :: (removeAllocated s.allocated (p, lsize, lalign)).map allocRegion)) :=
    List.Perm.append_left s.free hperm2
  have h2 : List.Perm (s.free ++ (allocRegion (p, lsize, lalign)
        :: (removeAllocated s.allocated (p, lsize, lalign)).map allocRegion))
      (allocRegion (p, lsize, lalign)
        :: (s.free ++ (removeAllocated s.allocated (p, lsize, lalign)).map allocRegion)) :=
    List.perm_middle
  have hSperm : List.Perm (LLRegions s)
      ((⟨p, (size_align lsize lalign).1⟩ : Region)
        :: (s.free ++ (removeAllocated s.allocated (p, lsize, lalign)).map allocRegion)) :=
    h1.trans h2
  rw [hT]
  constructor
  · intro r hr
    exact hwf r (hSperm.mem_iff.mpr hr)
  · exact (hSperm.pairwise_iff (fun h => regionsDisjoint_symm h)).mp hpw

/-- Well-formedness and disjointness hold along any legal call sequence. -/
theorem ll_inv_foldl (hs he : Nat) (hhe : he ≤ 2 ^ 63) :
    ∀ (ops : List LLOp) (s0 : LLState),
      (∀ r ∈ LLRegions s0, RegionWF hs he r) →
      (LLRegions s0).Pairwise RegionsDisjoint →
      LLValidSeq s0 ops →
      ((∀ r ∈ LLRegions (ops.foldl llStep s0), RegionWF hs he r) ∧
       (LLRegions (ops.foldl llStep s0)).Pairwise RegionsDisjoint) := by
  intro ops
  induction ops with
  | nil => intro s0 hwf hpw _; exact ⟨hwf, hpw⟩
  | cons op ops ih =>
    intro s0 hwf hpw hv
    have hstep : (∀ r ∈ LLRegions (llStep s0 op), RegionWF hs he r) ∧
        (LLRegions (llStep s0 op)).Pairwise RegionsDisjoint := by
      cases op with
      | alloc lsize lalign =>
        exact ll_alloc_preserves_inv hs he hhe s0 lsize lalign hv.1 hwf hpw
      | dealloc p lsize lalign =>
        exact ll_dealloc_preserves_inv hs he s0 p lsize lalign hv.1 hwf hpw
    exact ih (llStep s0 op) hstep.1 hstep.2 hv.2

/-- Well-formedness and disjointness hold in every reachable state. -/
theorem ll_reach_inv (hs hsize : Nat)
    (h8 : align_up hs NODE_ALIGN = hs) (hmin : NODE_SIZE ≤ hsize)
    (hbound : hs + hsize ≤ 2 ^ 63) (s : LLState)
    (hreach : LLReachable (llInit hs hsize) s) :
    (∀ r ∈ LLRegions s, RegionWF hs (hs + hsize) r) ∧
    (LLRegions s).Pairwise RegionsDisjoint := by
  obtain ⟨ops, hv, rfl⟩ := hreach
  apply ll_inv_foldl hs (hs + hsize) hbound ops (llInit hs hsize) ?_ ?_ hv
  · intro r hr
    have hL : LLRegions (llInit hs hsize) = [(⟨hs, hsize⟩ : Region)] := rfl
    rw [hL] at hr
    have hr2 : r = ⟨hs, hsize⟩ := List.mem_singleton.mp hr
    rw [hr2]
    exact ⟨h8, hmin, le_refl hs, le_refl (hs + hsize)⟩
  · have hL : LLRegions (llInit hs hsize) = [(⟨hs, hsize⟩ : Region)] := rfl
    rw [hL]
    simp

/-- C3 counterexample: after one allocation and its deallocation from a
heap seeded at 4096 with 1024 bytes, the free list is
`[⟨4096, 16⟩, ⟨4112, 1008⟩]` — a reachable state in which the next free
header starts exactly at `A + S`, not strictly past it, so the claimed
strict list-order gap is false. -/
theorem C3_next_header_counterexample :
    LLReachable (llInit 4096 1024)
      ⟨[⟨4096, 16⟩, ⟨4112, 1008⟩], []⟩ ∧
    nextStrictlyAfter [⟨4096, 16⟩, ⟨4112, 1008⟩] = false := by
  constructor
  · refine ⟨[LLOp.alloc 16 8, LLOp.dealloc 4096 16 8], ⟨?_, ?_, trivial⟩, ?_⟩
    · exact ⟨⟨3, by norm_num, by norm_num⟩, by norm_num⟩
    · show (4096, 16, 8) ∈ (llStep (llInit 4096 1024) (LLOp.alloc 16 8)).allocated
      decide
    · decide
  · decide

/-- C3 (amended): in every state of the linked-list allocator reachable
from `init` by a sequence of `alloc` calls and `dealloc` calls of
previously allocated blocks, every free-list node at address `A` with size
`S` satisfies `align_up(A, node_alignment) = A` and `S ≥ node_size`, and
the ranges `[A, A+S)` of distinct free nodes are pairwise disjoint.  (The
original claim's additional guarantee — that the next free header in list
order starts strictly past `A + S` — is dropped: deallocation prepends
nodes, so list order is neither address-ordered nor gapped; see the
counterexample.) -/
theorem C3_free_list_invariant (hs hsize : Nat)
    (h8 : align_up hs NODE_ALIGN = hs) (hmin : NODE_SIZE ≤ hsize)
    (hbound : hs + hsize ≤ 2 ^ 63) (s : LLState)
    (hreach : LLReachable (llInit hs hsize) s) :
    (∀ r ∈ s.free, align_up r.addr NODE_ALIGN = r.addr ∧ NODE_SIZE ≤ r.size) ∧
    s.free.Pairwise RegionsDisjoint := by
  obtain ⟨hwf, hpw⟩ := ll_reach_inv hs hsize h8 hmin hbound s hreach
  constructor
  · intro r hr
    obtain ⟨h1, h2, _, _⟩ := hwf r (List.mem_append_left _ hr)
    exact ⟨h1, h2⟩
  · exact hpw.sublist (List.sublist_append_left _ _)

/-- Witness for the amended C3 at the freshly initialized allocator. -/
theorem C3_free_list_invariant_witness :
    (align_up 4096 NODE_ALIGN = 4096 ∧ NODE_SIZE ≤ 1024) ∧
    ([(⟨4096, 1024⟩ : Region)]).Pairwise RegionsDisjoint := by
  have h := C3_free_list_invariant 4096 1024 (by decide) (by decide) (by decide)
    (llInit 4096 1024) ⟨[], trivial, rfl⟩
  exact ⟨h.1 ⟨4096, 1024⟩ (by decide), h.2⟩
